import Mathlib

/-
Verification development for the quaspy classical post-processing library.
The repository ships its function-level documentation; the executable
definitions below are shallow embeddings of the documented functions,
modelled from the specification text, and the theorems settle the claims
about them.
-/

/-- Modelled from the spec: the primality test used by the library
(a probabilistic test treated as exact); here an exact trial-division
test on the integers below n. -/
def isPrimeB (n : ℕ) : Bool :=
  decide (2 ≤ n) && (List.range n).all (fun d => decide (d < 2) || !(decide (d ∣ n)))

/-- Modelled from the spec: prime_range(B) returns an ordered list of all
primes less than B (the implementation body is absent from the repository;
the documentation in src/docs/math/primes/prime_range.md states the
contract). -/
def prime_range (B : ℕ) : List ℕ :=
  (List.range B).filter isPrimeB

/-- Fuel-driven search for the largest exponent, starting from e. -/
def maxExpAux (q B : ℕ) : ℕ → ℕ → ℕ
  | 0, e => e
  | fuel + 1, e => if q ^ (e + 1) ≤ B then maxExpAux q B fuel (e + 1) else e

/-- The largest non-negative integer e such that q ^ e is at most B. -/
def maxPowExp (q B : ℕ) : ℕ := maxExpAux q B B 0

/-- Modelled from the spec: prime_power_product(B) returns the product of
q ^ e as q runs over all primes at most B, for e the largest non-negative
exponent with q ^ e at most B (contract stated in
src/docs/math/primes/prime_power_product.md; the body is absent). -/
def prime_power_product (B : ℕ) : ℕ :=
  ((prime_range (B + 1)).map (fun q => q ^ maxPowExp q B)).prod

/-- Follows the words of claim C8 only, for comparison with
prime_power_product: the same product but restricted to primes strictly
below B. -/
def prime_power_product_below (B : ℕ) : ℕ :=
  ((prime_range B).map (fun q => q ^ maxPowExp q B)).prod

/-- Modelled from the spec: truncmod(x, N) is x mod N constrained to the
symmetric half-open interval, failing exactly when N is not positive
(src/docs/math/modular/truncmod.md; the body is absent). -/
def truncmod (x N : ℤ) : Option ℤ :=
  if N ≤ 0 then none
  else
    let r := x % N
    some (if N ≤ 2 * r then r - N else r)

/-- Modelled from the spec: the denominators of the convergents of the
continued-fraction expansion of q / p, computed by the Euclidean
algorithm; qm1 and qm2 are the two previous continuants.  The integer
part of the expansion contributes no denominator, so the expansion of 0
yields the empty list. -/
def cfDenomAux : ℕ → ℕ → ℕ → ℕ → ℕ → List ℕ
  | 0, _, _, _, _ => []
  | fuel + 1, p, q, qm1, qm2 =>
    if q = 0 then []
    else
      let a := p / q
      let qk := a * qm1 + qm2
      qk :: cfDenomAux fuel q (p % q) qk qm1

/-- Modelled from the spec: continued_fractions(j, m, l, bound)
expands j / 2 ^ (m + l) in continued fractions and returns the ordered
list of all denominators of convergents strictly below the bound, which
defaults to the floor of 2 ^ ((m + l) / 2); out-of-range j fails
(src/docs/math/continued_fractions/continued_fractions.md; the body is
absent). -/
def continued_fractions (j m l : ℕ) (db : Option ℕ) : Option (List ℕ) :=
  if j < 2 ^ (m + l) then
    let bound := db.getD (Nat.sqrt (2 ^ (m + l)))
    some ((cfDenomAux (j + 1) (2 ^ (m + l)) j 1 0).filter (fun d => decide (d < bound)))
  else none

/-- Modelled from the spec: CandidateCollection.add drops every stored
candidate divisible by the new candidate and inserts it, unless a stored
candidate already divides it; it returns whether the collection changed
(src/docs/orderfinding/.../CandidateCollection/add.md; the body is
absent).  The collection is the list of its minimal generators. -/
def CandidateCollection.add (S : List ℕ) (c : ℕ) : List ℕ × Bool :=
  if S.any (fun s => decide (s ∣ c)) then (S, false)
  else (c :: S.filter (fun s => !(decide (c ∣ s))), true)

/-- Modelled from the spec: the membership test of CandidateCollection,
true exactly when some stored candidate divides the queried one. -/
def CandidateCollection.mem (S : List ℕ) (c : ℕ) : Bool :=
  S.any (fun s => decide (s ∣ c))

/-- The collection obtained from the empty collection by a sequence of
add calls. -/
def CandidateCollection.addAll (cs : List ℕ) : List ℕ :=
  cs.foldl (fun S c => (CandidateCollection.add S c).1) []

/-- Modelled from the spec: an integer is cm-smooth when every prime power
in its factorisation is at most the cap. -/
def cmSmooth (cap d : ℕ) : Prop :=
  ∀ p ∈ d.primeFactors, p ^ d.factorization p ≤ cap

/-- Modelled from the spec: algorithm1(g, r_tilde, m, c) for a group
element of order r (the group is abstracted by its order: a power of g is
the identity exactly when its exponent is a multiple of r).  It returns
r_tilde times the cm-smooth prime-power product when that exponent sends
g to the identity, and the absent value otherwise
(src/docs/orderfinding/.../algorithms/algorithm1.md; the body is
absent). -/
def algorithm1 (r r_tilde m c : ℕ) : Option ℕ :=
  let P := prime_power_product (c * m)
  if r ∣ r_tilde * P then some (r_tilde * P) else none

/-- Fuel-driven loop of algorithm2: divide the candidate by q for as long
as q divides it and the quotient still sends g to the identity. -/
def shaveAux (r q : ℕ) : ℕ → ℕ → ℕ
  | 0, rp => rp
  | fuel + 1, rp =>
    if q ∣ rp ∧ r ∣ rp / q then shaveAux r q fuel (rp / q) else rp

/-- Modelled from the spec: algorithm2(g, r_tilde, m, c) starts from the
value of algorithm1 and, for each prime up to the cap in ascending order,
shaves off factors of the prime while the power of g remains the
identity (src/docs/orderfinding/.../algorithms/algorithm2.md; the body
is absent). -/
def algorithm2 (r r_tilde m c : ℕ) : Option ℕ :=
  let P := prime_power_product (c * m)
  if r ∣ r_tilde * P then
    some ((prime_range (c * m + 1)).foldl (fun rp q => shaveAux r q rp rp) (r_tilde * P))
  else none

/-- Fuel-driven search for the least index at or above i satisfying p,
returning the last scanned index when none does. -/
def leastSat (p : ℕ → Bool) : ℕ → ℕ → ℕ
  | 0, i => i
  | fuel + 1, i => if p i then i else leastSat p fuel (i + 1)

/-- Modelled from the spec: algorithm3(g, r_tilde, m, c) checks the
algorithm1 exponent and then, for each prime q up to the cap, searches
(the source uses a binary search over the same monotone predicate; here
an equivalent least-index search) for the least exponent of q that keeps
the power of g at the identity, combining the results multiplicatively
(src/docs/orderfinding/.../algorithms/algorithm3.md; the body is
absent). -/
def algorithm3 (r r_tilde m c : ℕ) : Option ℕ :=
  let B := c * m
  let P := prime_power_product B
  if r ∣ r_tilde * P then
    some (r_tilde * ((prime_range (B + 1)).foldl (fun acc q =>
      let e := maxPowExp q B
      acc * q ^ leastSat (fun i => decide (r ∣ r_tilde * (P / q ^ e) * q ^ i)) e 0) 1))
  else none

/-- Fuel-driven coprime splitting of a factor f against d: compute the
gcd and split f into the gcd and its cofactor until the parts and d
share no further factor. -/
def splitFactorAux (d : ℕ) : ℕ → ℕ → List ℕ
  | 0, f => [f]
  | fuel + 1, f =>
    let g := Nat.gcd f d
    if g = 1 ∨ g = f ∨ f = 0 then [f]
    else splitFactorAux d fuel g ++ splitFactorAux d fuel (f / g)

/-- Modelled from the spec: FactorCollection.add(d) splits every stored
composite factor against d by repeated gcds; prime factors are left
untouched (the FactorCollection body is absent from the repository; the
behaviour is stated in the spec, section 3 and 4.L). -/
def FactorCollection.add (factors : List ℕ) (d : ℕ) : List ℕ :=
  factors.flatMap (fun f => if isPrimeB f then [f] else splitFactorAux d f f)

/-- Modelled from the spec: the FactorCollection is complete when every
stored factor is a known prime. -/
def FactorCollection.complete (factors : List ℕ) : Bool :=
  factors.all isPrimeB

/-- Fuel-driven bit length of a natural number. -/
def bitLenAux : ℕ → ℕ → ℕ
  | 0, _ => 0
  | fuel + 1, n => if n = 0 then 0 else 1 + bitLenAux fuel (n / 2)

/-- The bit length of N. -/
def bitLength (n : ℕ) : ℕ := bitLenAux n n

/-- Fuel-driven 2-adic valuation, as the kappa function of the library. -/
def kappaAux : ℕ → ℕ → ℕ
  | 0, _ => 0
  | fuel + 1, n => if n % 2 = 0 ∧ n ≠ 0 then 1 + kappaAux fuel (n / 2) else 0

/-- Modelled from the spec: kappa(x) is the largest t with 2 ^ t
dividing x (src/docs/math/kappa; the body is absent). -/
def kappa (x : ℕ) : ℕ := kappaAux x x

/-- Modular exponentiation, the power operation of the ring of integers
modulo n. -/
def powMod (x e n : ℕ) : ℕ := x ^ e % n

/-- Modelled from the spec: the gcds gcd(y - 1, f) and gcd(y + 1, f)
collected while squaring y = x ^ o modulo f, aborting once y reaches the
identity (spec section 4.L, options opt_square and opt_abort_early). -/
def collectGcds (f : ℕ) : ℕ → ℕ → List ℕ
  | _, 0 => []
  | y, fuel + 1 =>
    Nat.gcd (y - 1) f :: Nat.gcd (y + 1) f ::
      (if y = 1 then [] else collectGcds f (y * y % f) fuel)

/-- Modelled from the spec: one iteration of the complete-factoring
solver with the default options: x is the sampled element, each stored
composite factor is processed separately, accidental factors shared with
x are reported, and the collected gcds are added to the collection
(spec section 4.L, step 2; the body is absent). -/
def factorIteration (r N c : ℕ) (factors : List ℕ) (x : ℕ) : List ℕ :=
  let t := kappa r
  let o := prime_power_product (c * bitLength N) * (r / 2 ^ t)
  let comps := factors.filter (fun f => !(isPrimeB f))
  let acc := Nat.gcd x comps.prod
  let ds := acc :: comps.flatMap (fun f => collectGcds f (powMod (x % f) o f) (t + 1))
  ds.foldl FactorCollection.add factors

/-- Loop of solve_r_for_factors: at the head of each iteration, stop
with the set of primes when the collection is complete, otherwise check
the cooperative timeout (modelled as a budget of loop iterations) and
the explicit iteration limit k; the random elements are supplied by the
stream xs. -/
def solveRAux (r N c : ℕ) : List ℕ → Option ℕ → Option ℕ → List ℕ →
    Except (List ℕ) (Finset ℕ)
  | factors, k, tmo, xs =>
    if FactorCollection.complete factors then Except.ok factors.toFinset
    else if tmo = some 0 then Except.error factors
    else if k = some 0 then Except.error factors
    else
      match xs with
      | [] => Except.error factors
      | x :: rest =>
          solveRAux r N c (factorIteration r N c factors x)
            (k.map (fun i => i - 1)) (tmo.map (fun i => i - 1)) rest

/-- Modelled from the spec: solve_r_for_factors(r, N, c, k, timeout)
initialises the FactorCollection from N, first adds gcd(r, N) (the
default opt_split_factors_with_multiplicity), then iterates at most k
times over the stream xs of sampled elements; it returns the set of
primes when the collection is complete and fails with the partial list
of factors when k or the timeout is exhausted first (spec section 4.L;
the body is absent from the repository). -/
def solve_r_for_factors (r N c : ℕ) (k tmo : Option ℕ) (xs : List ℕ) :
    Except (List ℕ) (Finset ℕ) :=
  solveRAux r N c (FactorCollection.add [N] (Nat.gcd r N)) k tmo xs

/-- Modelled from the spec: solve_j_for_factors chains solve_j_for_r and
solve_r_for_factors (src/unnamed/part_029: the convenience function
simply calls the two solvers in sequence).  The order-finding step,
whose code is absent from the repository, is abstracted by its returned
value, the lifted multiple of r or the absent value.  The absent value
propagates as the returned None; a failure of the factoring phase
propagates as the IncompleteFactorisation error. -/
def solve_j_for_factors (lifted : Option ℕ) (N c : ℕ) (k tmo : Option ℕ)
    (xs : List ℕ) : Except (List ℕ) (Option (Finset ℕ)) :=
  match lifted with
  | none => Except.ok none
  | some r =>
      match solve_r_for_factors r N c k tmo xs with
      | Except.ok s => Except.ok (some s)
      | Except.error pfs => Except.error pfs

/-- Modelled from the spec: solve_j_for_factors_mod_N simply calls
solve_j_for_factors with the group element set up modulo N
(src/unnamed/part_029). -/
def solve_j_for_factors_mod_N (lifted : Option ℕ) (N c : ℕ) (k tmo : Option ℕ)
    (xs : List ℕ) : Except (List ℕ) (Option (Finset ℕ)) :=
  solve_j_for_factors lifted N c k tmo xs

/-- Modelled from the spec: the square norm of a two-dimensional integer
vector (src/unnamed/part_002). -/
def norm2 (u : ℤ × ℤ) : ℤ := u.1 * u.1 + u.2 * u.2

/-- The inner product of two two-dimensional integer vectors. -/
def dot2 (u v : ℤ × ℤ) : ℤ := u.1 * v.1 + u.2 * v.2

/-- The integer nearest to a / b for a positive b, rounding half
upwards; for b = 0 the result is 0. -/
def intRound (a b : ℤ) : ℤ := (2 * a + b) / (2 * b)

/-- Modelled from the spec: is_lagrange_reduced(A) holds when the first
row is no longer than the second and twice the absolute inner product of
the rows is at most the square norm of the first row
(src/docs/math/lattices/lagrange/is_lagrange_reduced.md; the body is
absent). -/
def is_lagrange_reduced (A : (ℤ × ℤ) × (ℤ × ℤ)) : Prop :=
  norm2 A.1 ≤ norm2 A.2 ∧ 2 * |dot2 A.1 A.2| ≤ norm2 A.1

/-- State of the Lagrange reduction: the two working rows u, v and the
rows mu, mv of the tracked multiples matrix. -/
structure LagState where
  u : ℤ × ℤ
  v : ℤ × ℤ
  mu : ℤ × ℤ
  mv : ℤ × ℤ

/-- Fuel-driven loop of the Lagrange reduction: put the shorter row
first, subtract from the longer row the nearest-integer multiple of the
shorter, and either stop, when the pair is reduced, or continue with the
rows exchanged.  The multiples rows undergo the same row operations. -/
def lagrangeAux : ℕ → LagState → LagState
  | 0, st => st
  | fuel + 1, st =>
    let s1 := if norm2 st.v < norm2 st.u then LagState.mk st.v st.u st.mv st.mu else st
    let q := intRound (dot2 s1.u s1.v) (norm2 s1.u)
    let v2 := s1.v - q • s1.u
    let mv2 := s1.mv - q • s1.mu
    if norm2 s1.u ≤ norm2 v2 then LagState.mk s1.u v2 s1.mu mv2
    else lagrangeAux fuel (LagState.mk v2 s1.u mv2 s1.mu)

/-- The iteration budget that suffices for the Lagrange loop: one more
than the square norm of the shorter row. -/
def lagFuel (st : LagState) : ℕ := (min (norm2 st.u) (norm2 st.v)).toNat + 1

/-- Modelled from the spec: lagrange(A, multiples) reduces the basis
A = [u, v], starting from the rows described by the optional multiples
matrix, and returns the reduced basis together with the updated
multiples (src/docs/math/lattices/lagrange/lagrange.md; the body is
absent). -/
def lagrange (A : (ℤ × ℤ) × (ℤ × ℤ)) (multiples : Option ((ℤ × ℤ) × (ℤ × ℤ))) :
    ((ℤ × ℤ) × (ℤ × ℤ)) × ((ℤ × ℤ) × (ℤ × ℤ)) :=
  let st0 :=
    match multiples with
    | none => LagState.mk A.1 A.2 (1, 0) (0, 1)
    | some U =>
        LagState.mk (U.1.1 • A.1 + U.1.2 • A.2) (U.2.1 • A.1 + U.2.2 • A.2) U.1 U.2
  let st := lagrangeAux (lagFuel st0) st0
  ((st.u, st.v), (st.mu, st.mv))

/-- Membership in the lattice generated by the rows of a 2 x 2 integer
basis. -/
def InLat (A : (ℤ × ℤ) × (ℤ × ℤ)) (w : ℤ × ℤ) : Prop :=
  ∃ c d : ℤ, w = c • A.1 + d • A.2

/-- The determinant of a 2 x 2 integer matrix given as a pair of rows. -/
def det2 (U : (ℤ × ℤ) × (ℤ × ℤ)) : ℤ := U.1.1 * U.2.2 - U.1.2 * U.2.1

/-- The inner product of two rational vectors indexed by Fin n. -/
def dotQ {n : ℕ} (v w : Fin n → ℚ) : ℚ := ∑ j, v j * w j

/-- Row i of an integer basis matrix, as a rational vector. -/
def rowQ {n : ℕ} (B : Matrix (Fin n) (Fin n) ℤ) (i : Fin n) : Fin n → ℚ :=
  fun j => (B i j : ℚ)

/-- Row i of an integer basis matrix for a natural index, zero out of
range. -/
def rowN {n : ℕ} (B : Matrix (Fin n) (Fin n) ℤ) (i : ℕ) : Fin n → ℚ :=
  if h : i < n then rowQ B ⟨i, h⟩ else 0

/-- Modelled from the spec: the Gram-Schmidt orthogonalisation of the
first k rows of B, built row by row; each new star is the row minus its
projections onto the previous stars (src/unnamed/part_014; the body is
absent). -/
def gsStars {n : ℕ} (B : Matrix (Fin n) (Fin n) ℤ) : ℕ → List (Fin n → ℚ)
  | 0 => []
  | k + 1 =>
    let prev := gsStars B k
    if k < n then
      prev ++ [rowN B k - prev.foldr
        (fun s acc => acc + (dotQ (rowN B k) s / dotQ s s) • s) 0]
    else prev

/-- The square distance between two rational vectors. -/
def distSq {n : ℕ} (v w : Fin n → ℚ) : ℚ := ∑ j, (v j - w j) ^ 2

/-- Round to the nearest integer, halves upwards. -/
def ratRound (x : ℚ) : ℤ := ⌊x + 1 / 2⌋

/-- An integer upper bound for a rational number. -/
def ratBound (q : ℚ) : ℤ := |q.num| + 1

/-- The integer combination of the rows of B with coefficients c, as a
rational vector. -/
def latticeVec {n : ℕ} (B : Matrix (Fin n) (Fin n) ℤ) (c : Fin n → ℤ) :
    Fin n → ℚ :=
  fun j => ∑ i, (c i : ℚ) * (B i j : ℚ)

/-- Membership in the lattice generated by the rows of B. -/
def InLattice {n : ℕ} (B : Matrix (Fin n) (Fin n) ℤ) (v : Fin n → ℚ) : Prop :=
  ∃ c : Fin n → ℤ, v = latticeVec B c

/-- Modelled from the spec: the loop of the Babai nearest-plane
algorithm; for i from n down to 1 the residual loses the rounded
projection of itself onto star i times row i (spec section 4.D; the
body is absent). -/
def babaiAux {n : ℕ} (B : Matrix (Fin n) (Fin n) ℤ) (stars : List (Fin n → ℚ)) :
    ℕ → (Fin n → ℚ) → (Fin n → ℚ)
  | 0, w => w
  | i + 1, w =>
    let s := stars.getD i 0
    let q := ratRound (dotQ w s / dotQ s s)
    babaiAux B stars i (w - (q : ℚ) • rowN B i)

/-- Modelled from the spec: babai(B, t) returns the target minus the
residual left by the nearest-plane loop, a lattice vector close to t
(src/docs/math/babai/babai.md and spec section 4.D; the body is
absent). -/
def babai {n : ℕ} (B : Matrix (Fin n) (Fin n) ℤ) (t : Fin n → ℚ) : Fin n → ℚ :=
  t - babaiAux B (gsStars B n) n t

/-- Modelled from the spec: is_lll_reduced(B, delta) holds when the
size-reduction bound on the projection factors and the Lovasz condition
on consecutive stars both hold (src/docs/math/lattices/lll and spec
glossary; the body is absent). -/
def is_lll_reduced {n : ℕ} (B : Matrix (Fin n) (Fin n) ℤ) (δ : ℚ) : Prop :=
  let stars := gsStars B n
  let nrm := fun j => dotQ (stars.getD j 0) (stars.getD j 0)
  let mu := fun i j => dotQ (rowN B i) (stars.getD j 0) / nrm j
  (∀ i < n, ∀ j < i, |mu i j| ≤ 1 / 2) ∧
  (∀ k < n, k + 1 < n → (δ - mu (k + 1) k ^ 2) * nrm k ≤ nrm (k + 1))

/-- The basis matrix with entries read as exact rationals. -/
def matQ {n : ℕ} (B : Matrix (Fin n) (Fin n) ℤ) : Matrix (Fin n) (Fin n) ℚ :=
  fun i j => ((B i j : ℤ) : ℚ)

/-- The list of integers from lo to hi inclusive. -/
def intRange (lo hi : ℤ) : List ℤ :=
  (List.range (hi - lo).toNat.succ).map (fun i => lo + Int.ofNat i)

/-- All tuples of the given length with entries drawn from cands. -/
def allTuples (cands : List ℤ) : ℕ → List (List ℤ)
  | 0 => [[]]
  | k + 1 => (allTuples cands k).flatMap (fun tl => cands.map (fun a => a :: tl))

/-- Modelled from the spec: solve_cvp(B, t) computes the Babai estimate,
then enumerates the lattice vectors inside the ball around t whose
radius is the distance of the estimate (every such vector has bounded
coordinates in the basis, which confines the enumeration to a finite
box), and returns a vector at minimal distance from t
(src/docs/math/lattices/cvp/solve_cvp.md and spec section 4.F; the body
is absent, and the tree walk of the source is replaced by a direct walk
of the bounding box). -/
def solve_cvp {n : ℕ} (B : Matrix (Fin n) (Fin n) ℤ) (t : Fin n → ℚ) :
    Fin n → ℚ :=
  let bv := babai B t
  let R2 := distSq bv t
  let Binv := ((matQ B).det)⁻¹ • (matQ B).adjugate
  let Amax := ∑ p, ∑ q2, |Binv p q2|
  let K := (∑ j, (|t j| + max 1 R2)) * Amax
  let Kc := ratBound K
  let box := (allTuples (intRange (-Kc) Kc) n).map
    (fun l => (fun i : Fin n => l.getD i 0))
  box.foldl (fun best c =>
    let v := latticeVec B c
    if distSq v t < distSq best t then v else best) bv

theorem isPrimeB_iff (n : ℕ) : isPrimeB n = true ↔ Nat.Prime n := by
  simp only [isPrimeB, Bool.and_eq_true, decide_eq_true_eq, List.all_eq_true,
    List.mem_range, Bool.or_eq_true, Bool.not_eq_true', decide_eq_false_iff_not,
    Nat.prime_def_lt]
  constructor
  · rintro ⟨h2, h⟩
    refine ⟨h2, fun m hm hdvd => ?_⟩
    rcases h m hm with h1 | h1
    · interval_cases m
      · exact absurd (Nat.eq_zero_of_zero_dvd hdvd) (by omega)
      · rfl
    · exact absurd hdvd h1
  · rintro ⟨h2, h⟩
    refine ⟨h2, fun d hd => ?_⟩
    by_cases hdvd : d ∣ n
    · exact Or.inl (by have := h d hd hdvd; omega)
    · exact Or.inr hdvd

theorem prime_range_sorted (B : ℕ) : List.Sorted (· < ·) (prime_range B) :=
  (List.pairwise_lt_range B).filter _

theorem mem_prime_range (B p : ℕ) : p ∈ prime_range B ↔ Nat.Prime p ∧ p < B := by
  simp [prime_range, List.mem_filter, List.mem_range, isPrimeB_iff, and_comm]

theorem maxExpAux_spec (q B : ℕ) (hq : 2 ≤ q) :
    ∀ fuel e, q ^ e ≤ B → B < q ^ (e + fuel + 1) →
      q ^ maxExpAux q B fuel e ≤ B ∧ B < q ^ (maxExpAux q B fuel e + 1) := by
  intro fuel
  induction fuel with
  | zero =>
      intro e he hlt
      simpa [maxExpAux] using ⟨he, hlt⟩
  | succ fuel ih =>
      intro e he hlt
      rw [maxExpAux]
      by_cases h : q ^ (e + 1) ≤ B
      · rw [if_pos h]
        exact ih (e + 1) h (by convert hlt using 2; omega)
      · rw [if_neg h]
        exact ⟨he, by omega⟩

theorem maxPowExp_spec (q B : ℕ) (hq : 2 ≤ q) (hB : 1 ≤ B) :
    q ^ maxPowExp q B ≤ B ∧ B < q ^ (maxPowExp q B + 1) := by
  refine maxExpAux_spec q B hq B 0 (by simpa using hB) ?_
  calc B < 2 ^ B := Nat.lt_two_pow B
    _ ≤ 2 ^ (0 + B + 1) := Nat.pow_le_pow_right (by norm_num) (by omega)
    _ ≤ q ^ (0 + B + 1) := Nat.pow_le_pow_left hq _

theorem maxPowExp_eq_log (q B : ℕ) (hq : 2 ≤ q) (hB : 1 ≤ B) :
    maxPowExp q B = Nat.log q B := by
  obtain ⟨h1, h2⟩ := maxPowExp_spec q B hq hB
  exact (Nat.log_eq_of_pow_le_of_lt_pow h1 h2).symm

theorem prime_range_nodup (B : ℕ) : (prime_range B).Nodup :=
  (prime_range_sorted B).imp (fun h => Nat.ne_of_lt h)

theorem prime_power_product_eq (B : ℕ) (hB : 2 ≤ B) :
    prime_power_product B =
      ∏ q ∈ (Finset.range (B + 1)).filter Nat.Prime, q ^ Nat.log q B := by
  unfold prime_power_product
  rw [← List.prod_toFinset _ (prime_range_nodup (B + 1))]
  have hset : (prime_range (B + 1)).toFinset = (Finset.range (B + 1)).filter Nat.Prime := by
    ext p
    simp [List.mem_toFinset, mem_prime_range, Finset.mem_filter, Finset.mem_range, and_comm]
  rw [hset]
  refine Finset.prod_congr rfl (fun q hq => ?_)
  rcases Finset.mem_filter.mp hq with ⟨_, hqp⟩
  rw [maxPowExp_eq_log q B hqp.two_le (by omega)]

/-- C8 counterexample: at B = 3 the library product runs over the primes
up to and including 3 and equals 6, while the product over the primes
strictly below 3, as the claim words it, equals 2. -/
theorem C8_cex :
    prime_power_product 3 = 6 ∧ prime_power_product_below 3 = 2 ∧
      prime_power_product 3 ≠ prime_power_product_below 3 := by
  refine ⟨by decide, by decide, by decide⟩

/-- C8 (amended): for every B at least 2, prime_range(B) is the
ascending ordered list of exactly the primes strictly below B, and
prime_power_product(B) is the product, over all primes q up to and
including B, of q raised to the largest exponent e with q ^ e at most B
(the largest such exponent being the base-q logarithm of B). -/
theorem C8_prime_range_and_product (B : ℕ) (hB : 2 ≤ B) :
    List.Sorted (· < ·) (prime_range B) ∧
    (∀ p, p ∈ prime_range B ↔ Nat.Prime p ∧ p < B) ∧
    prime_power_product B =
      ∏ q ∈ (Finset.range (B + 1)).filter Nat.Prime, q ^ Nat.log q B :=
  ⟨prime_range_sorted B, fun p => mem_prime_range B p, prime_power_product_eq B hB⟩

/-- Witness for C8 at B = 10. -/
theorem C8_prime_range_and_product_witness :
    2 ≤ 10 ∧ (List.Sorted (· < ·) (prime_range 10) ∧
    (∀ p, p ∈ prime_range 10 ↔ Nat.Prime p ∧ p < 10) ∧
    prime_power_product 10 =
      ∏ q ∈ (Finset.range 11).filter Nat.Prime, q ^ Nat.log q 10) :=
  ⟨by norm_num, C8_prime_range_and_product 10 (by norm_num)⟩

/-- C6: for every integer x and positive modulus N, truncmod(x, N)
returns a value congruent to x that lies in the symmetric half-open
interval, and it fails exactly when N is not positive. -/
theorem C6_truncmod (x N : ℤ) :
    (0 < N → ∃ v, truncmod x N = some v ∧
      -((N + 1) / 2) ≤ v ∧ v < (N + 1) / 2 ∧ N ∣ v - x) ∧
    (truncmod x N = none ↔ N ≤ 0) := by
  constructor
  · intro hN
    have hne : N ≠ 0 := by omega
    have hr0 : 0 ≤ x % N := Int.emod_nonneg x hne
    have hrN : x % N < N := Int.emod_lt_of_pos x hN
    have hdvd : N ∣ x % N - x := by
      rw [Int.emod_def]
      exact ⟨-(x / N), by ring⟩
    rw [truncmod, if_neg (by omega)]
    by_cases h : N ≤ 2 * (x % N)
    · refine ⟨x % N - N, by simp [h], by omega, by omega, ?_⟩
      have : x % N - N - x = (x % N - x) + N * (-1) := by ring
      rw [this]
      exact dvd_add hdvd ⟨-1, rfl⟩
    · exact ⟨x % N, by simp [h], by omega, by omega, hdvd⟩
  · constructor
    · intro h
      by_contra hN
      rw [truncmod, if_neg hN] at h
      simp at h
    · intro h
      rw [truncmod, if_pos h]

/-- Witness for C6 at x = -7, N = 4. -/
theorem C6_truncmod_witness :
    (0 : ℤ) < 4 ∧ ∃ v, truncmod (-7) 4 = some v ∧
      -((4 + 1) / 2) ≤ v ∧ v < (4 + 1) / 2 ∧ (4 : ℤ) ∣ v - (-7) :=
  ⟨by norm_num, (C6_truncmod (-7) 4).1 (by norm_num)⟩

theorem ccAdd_pairwise (S : List ℕ) (c : ℕ)
    (h : List.Pairwise (fun a b => ¬a ∣ b ∧ ¬b ∣ a) S) :
    List.Pairwise (fun a b => ¬a ∣ b ∧ ¬b ∣ a) (CandidateCollection.add S c).1 := by
  rw [CandidateCollection.add]
  by_cases hany : S.any (fun s => decide (s ∣ c)) = true
  · rw [if_pos hany]
    exact h
  · rw [if_neg hany]
    simp only [List.any_eq_true, decide_eq_true_eq, not_exists, not_and] at hany
    refine List.pairwise_cons.mpr ⟨fun s hs => ?_, h.sublist (List.filter_sublist S)⟩
    have hsS : s ∈ S := List.mem_of_mem_filter hs
    have hcs : ¬ c ∣ s := by
      have := List.of_mem_filter hs
      simpa using this
    exact ⟨hcs, fun hdvd => hany s hsS hdvd⟩

theorem ccAddAll_pairwise (cs : List ℕ) :
    List.Pairwise (fun a b => ¬a ∣ b ∧ ¬b ∣ a) (CandidateCollection.addAll cs) := by
  rw [CandidateCollection.addAll]
  have main : ∀ (l : List ℕ) (S : List ℕ),
      List.Pairwise (fun a b => ¬a ∣ b ∧ ¬b ∣ a) S →
      List.Pairwise (fun a b => ¬a ∣ b ∧ ¬b ∣ a)
        (l.foldl (fun S c => (CandidateCollection.add S c).1) S) := by
    intro l
    induction l with
    | nil => intro S hS; exact hS
    | cons c rest ih => intro S hS; exact ih _ (ccAdd_pairwise S c hS)
  exact main cs [] List.Pairwise.nil

/-- C2: starting from the empty CandidateCollection, after every
sequence of add calls no stored candidate divides another; the
membership test answers whether some stored candidate divides the
query; add leaves the collection unchanged when a stored candidate
divides the new one and otherwise removes the stored multiples of the
new candidate and inserts it; and add returns true exactly when the
stored list changed. -/
theorem C2_candidate_collection (cs : List ℕ) (c : ℕ) :
    List.Pairwise (fun a b => ¬a ∣ b ∧ ¬b ∣ a) (CandidateCollection.addAll cs) ∧
    (CandidateCollection.mem (CandidateCollection.addAll cs) c = true ↔
      ∃ s ∈ CandidateCollection.addAll cs, s ∣ c) ∧
    ((∃ s ∈ CandidateCollection.addAll cs, s ∣ c) →
      CandidateCollection.add (CandidateCollection.addAll cs) c =
        (CandidateCollection.addAll cs, false)) ∧
    (¬ (∃ s ∈ CandidateCollection.addAll cs, s ∣ c) →
      (CandidateCollection.add (CandidateCollection.addAll cs) c).1 =
        c :: (CandidateCollection.addAll cs).filter (fun s => !(decide (c ∣ s)))) ∧
    ((CandidateCollection.add (CandidateCollection.addAll cs) c).2 = true ↔
      (CandidateCollection.add (CandidateCollection.addAll cs) c).1 ≠
        CandidateCollection.addAll cs) := by
  set S := CandidateCollection.addAll cs with hS
  refine ⟨ccAddAll_pairwise cs, ?_, ?_, ?_, ?_⟩
  · simp [CandidateCollection.mem, List.any_eq_true]
  · intro hex
    rw [CandidateCollection.add, if_pos (by simpa [List.any_eq_true] using hex)]
  · intro hex
    rw [CandidateCollection.add, if_neg (by simpa [List.any_eq_true] using hex)]
  · by_cases hany : S.any (fun s => decide (s ∣ c)) = true
    · rw [CandidateCollection.add, if_pos hany]
      simp
    · rw [CandidateCollection.add, if_neg hany]
      simp only [List.any_eq_true, decide_eq_true_eq, not_exists, not_and] at hany
      have hcS : c ∉ S := fun hc => hany c hc dvd_rfl
      simp only [true_iff]
      intro heq
      exact hcS (heq ▸ List.mem_cons_self c _)

/-- Witness for C2 with the adds 6, 4, 2 and the query 9. -/
theorem C2_candidate_collection_witness :
    ¬ (∃ s ∈ CandidateCollection.addAll [6, 4, 2], s ∣ 9) ∧
    (CandidateCollection.add (CandidateCollection.addAll [6, 4, 2]) 9).1 =
      9 :: (CandidateCollection.addAll [6, 4, 2]).filter (fun s => !(decide ((9 : ℕ) ∣ s))) :=
  ⟨by decide, (C2_candidate_collection [6, 4, 2] 9).2.2.2.1 (by decide)⟩

theorem cfDenomAux_chain :
    ∀ (fuel p q qm1 qm2 : ℕ), q ≤ fuel → q < p → 1 ≤ qm1 →
      List.Chain' (· < ·) (cfDenomAux fuel p q qm1 qm2) ∧
      (∀ y ∈ (cfDenomAux fuel p q qm1 qm2).head?, qm1 + qm2 ≤ y) := by
  intro fuel
  induction fuel with
  | zero =>
      intro p q qm1 qm2 hq _ _
      interval_cases q
      simp [cfDenomAux]
  | succ fuel ih =>
      intro p q qm1 qm2 hq hqp h1
      rw [cfDenomAux]
      by_cases hq0 : q = 0
      · simp [hq0]
      · rw [if_neg hq0]
        have hqpos : 0 < q := Nat.pos_of_ne_zero hq0
        have ha : 1 ≤ p / q := (Nat.one_le_div_iff hqpos).mpr (le_of_lt hqp)
        have hqk : qm1 + qm2 ≤ p / q * qm1 + qm2 := by
          have := Nat.mul_le_mul_right qm1 ha
          omega
        have hmod : p % q < q := Nat.mod_lt p hqpos
        obtain ⟨hchain, hhead⟩ :=
          ih q (p % q) (p / q * qm1 + qm2) qm1 (by omega) hmod (by omega)
        refine ⟨List.chain'_cons'.mpr ⟨fun y hy => ?_, hchain⟩, ?_⟩
        · have := hhead y hy
          omega
        · intro y hy
          simp only [List.head?_cons, Option.mem_def, Option.some.injEq] at hy
          omega

/-- C7: for j in range, continued_fractions(j, m, l) succeeds and
returns a strictly increasing list, without repetitions, of denominators
all strictly below the bound, the bound defaulting to the floor of
2 ^ ((m + l) / 2); at j = 0 the list is empty. -/
theorem C7_continued_fractions (j m l : ℕ) (db : Option ℕ)
    (hm : 1 ≤ m) (hj : j < 2 ^ (m + l)) :
    ∃ L, continued_fractions j m l db = some L ∧
      List.Sorted (· < ·) L ∧ L.Nodup ∧
      (∀ y ∈ L, y < db.getD (Nat.sqrt (2 ^ (m + l)))) ∧
      (j = 0 → L = []) := by
  rw [continued_fractions, if_pos hj]
  refine ⟨_, rfl, ?_, ?_, ?_, ?_⟩
  · have hchain := (cfDenomAux_chain (j + 1) (2 ^ (m + l)) j 1 0 (by omega) hj (by omega)).1
    have hpair := List.chain'_iff_pairwise.mp hchain
    exact hpair.filter _
  · have hchain := (cfDenomAux_chain (j + 1) (2 ^ (m + l)) j 1 0 (by omega) hj (by omega)).1
    have hpair := List.chain'_iff_pairwise.mp hchain
    exact ((hpair.filter _).imp (fun h => Nat.ne_of_lt h))
  · intro y hy
    have := List.of_mem_filter hy
    simpa using this
  · intro h0
    subst h0
    rfl

/-- Witness for C7 at j = 155, m = 4, l = 4, as in scenario E2 of the
spec. -/
theorem C7_continued_fractions_witness :
    1 ≤ 4 ∧ 155 < 2 ^ (4 + 4) ∧
    ∃ L, continued_fractions 155 4 4 none = some L ∧
      List.Sorted (· < ·) L ∧ L.Nodup ∧
      (∀ y ∈ L, y < (none : Option ℕ).getD (Nat.sqrt (2 ^ (4 + 4)))) ∧
      ((155 : ℕ) = 0 → L = []) :=
  ⟨by norm_num, by norm_num, C7_continued_fractions 155 4 4 none (by norm_num) (by norm_num)⟩

theorem listprod_pow_factorization (l : List ℕ) (f : ℕ → ℕ)
    (hl : ∀ q ∈ l, Nat.Prime q) (hnd : l.Nodup) (p : ℕ) :
    ((l.map (fun q => q ^ f q)).prod).factorization p =
      if p ∈ l then f p else 0 := by
  induction l with
  | nil => simp
  | cons q rest ih =>
      have hq := hl q (List.mem_cons_self q rest)
      have hrest : ∀ x ∈ rest, Nat.Prime x := fun x hx => hl x (List.mem_cons_of_mem q hx)
      have hnd2 := List.nodup_cons.mp hnd
      have hne1 : q ^ f q ≠ 0 := pow_ne_zero _ hq.pos.ne'
      have hne2 : ((rest.map (fun q => q ^ f q)).prod) ≠ 0 := by
        refine (List.prod_pos ?_).ne'
        intro a ha
        obtain ⟨x, hx, rfl⟩ := List.mem_map.mp ha
        exact pow_pos (hrest x hx).pos _
      rw [List.map_cons, List.prod_cons, Nat.factorization_mul hne1 hne2,
        Finsupp.add_apply, ih hrest hnd2.2, hq.factorization_pow, Finsupp.single_apply]
      by_cases hpq : p = q
      · subst hpq
        simp [hnd2.1]
      · simp [hpq, Ne.symm hpq]

theorem prime_power_product_pos (B : ℕ) : 0 < prime_power_product B := by
  refine List.prod_pos ?_
  intro a ha
  obtain ⟨x, hx, rfl⟩ := List.mem_map.mp ha
  exact pow_pos ((mem_prime_range _ _).mp hx).1.pos _

theorem ppp_factorization (B p : ℕ) :
    (prime_power_product B).factorization p =
      if p ∈ prime_range (B + 1) then maxPowExp p B else 0 :=
  listprod_pow_factorization _ _ (fun q hq => ((mem_prime_range _ _).mp hq).1)
    (prime_range_nodup _) p

theorem prime_le_of_dvd_ppp (B p : ℕ) (hp : Nat.Prime p)
    (hdvd : p ∣ prime_power_product B) : p ≤ B := by
  have h1 : 1 ≤ (prime_power_product B).factorization p :=
    (Nat.Prime.dvd_iff_one_le_factorization hp (prime_power_product_pos B).ne').mp hdvd
  rw [ppp_factorization] at h1
  by_cases hmem : p ∈ prime_range (B + 1)
  · have := (mem_prime_range _ _).mp hmem
    omega
  · simp [hmem] at h1

theorem factorization_le_maxPowExp (B p e : ℕ) (hp : Nat.Prime p)
    (hpe : p ^ e ≤ B) (hB : 1 ≤ B) : e ≤ maxPowExp p B := by
  have h2 := (maxPowExp_spec p B hp.two_le hB).2
  by_contra hlt
  push_neg at hlt
  have : p ^ (maxPowExp p B + 1) ≤ p ^ e := Nat.pow_le_pow_right hp.pos (by omega)
  omega

theorem cmSmooth_dvd_ppp (cap d : ℕ) (hd : 0 < d) (hsm : cmSmooth cap d) :
    d ∣ prime_power_product cap := by
  rw [← Nat.factorization_le_iff_dvd hd.ne' (prime_power_product_pos cap).ne']
  intro p
  by_cases hmem : p ∈ d.primeFactors
  · have hp : Nat.Prime p := Nat.prime_of_mem_primeFactors hmem
    have hppos : 1 ≤ d.factorization p := by
      rw [← Nat.support_factorization] at hmem
      have := Finsupp.mem_support_iff.mp hmem
      omega
    have hple := hsm p hmem
    have hcap : 1 ≤ cap := by
      have : 2 ≤ p ^ d.factorization p :=
        le_trans hp.two_le (Nat.le_self_pow (by omega) p)
      omega
    have hpcap : p ≤ cap := by
      calc p = p ^ 1 := (pow_one p).symm
        _ ≤ p ^ d.factorization p := Nat.pow_le_pow_right hp.pos hppos
        _ ≤ cap := hple
    rw [ppp_factorization]
    rw [if_pos ((mem_prime_range _ _).mpr ⟨hp, by omega⟩)]
    exact factorization_le_maxPowExp cap p _ hp hple hcap
  · have : d.factorization p = 0 := by
      rw [← Nat.support_factorization] at hmem
      exact Finsupp.not_mem_support_iff.mp hmem
    omega

theorem shaveAux_spec (r q : ℕ) (hq : 2 ≤ q) :
    ∀ fuel rp, rp ≤ fuel → 0 < rp → r ∣ rp →
      ∃ k, q ^ k ∣ rp ∧ shaveAux r q fuel rp = rp / q ^ k ∧ r ∣ rp / q ^ k ∧
        ¬ (q ∣ rp / q ^ k ∧ r ∣ rp / q ^ k / q) := by
  intro fuel
  induction fuel with
  | zero => intro rp h1 h2 _; omega
  | succ fuel ih =>
      intro rp hle hpos hdvd
      rw [shaveAux]
      by_cases hcond : q ∣ rp ∧ r ∣ rp / q
      · rw [if_pos hcond]
        have hq1 : rp / q < rp := Nat.div_lt_self hpos (by omega)
        have hq2 : 0 < rp / q := Nat.div_pos (Nat.le_of_dvd hpos hcond.1) (by omega)
        obtain ⟨k, hk1, hk2, hk3, hk4⟩ := ih (rp / q) (by omega) hq2 hcond.2
        have hform : rp / q ^ (k + 1) = rp / q / q ^ k := by
          rw [pow_succ', ← Nat.div_div_eq_div_mul]
        refine ⟨k + 1, ?_, ?_, ?_, ?_⟩
        · obtain ⟨s, hs⟩ := hcond.1
          obtain ⟨w, hw⟩ := hk1
          subst hs
          rw [Nat.mul_div_cancel_left s (by omega : 0 < q)] at hw
          exact ⟨w, by rw [hw, pow_succ']; ring⟩
        · rw [hk2, hform]
        · rw [hform]; exact hk3
        · rw [hform]; exact hk4
      · rw [if_neg hcond]
        refine ⟨0, by simp, by simp, by simpa using hdvd, by simpa using hcond⟩

theorem stop_factorization (r q rp : ℕ) (hq : Nat.Prime q) (h0 : 0 < rp)
    (hr : 0 < r) (hdvd : r ∣ rp) (hstop : ¬ (q ∣ rp ∧ r ∣ rp / q)) :
    rp.factorization q = r.factorization q := by
  have hge : r.factorization q ≤ rp.factorization q :=
    (Nat.factorization_le_iff_dvd hr.ne' h0.ne').mpr hdvd q
  by_contra hne
  have hgt : r.factorization q + 1 ≤ rp.factorization q := by omega
  have hqdvd : q ∣ rp := by
    refine (Nat.Prime.dvd_iff_one_le_factorization hq h0.ne').mpr (by omega)
  refine hstop ⟨hqdvd, ?_⟩
  have hpos2 : 0 < rp / q := Nat.div_pos (Nat.le_of_dvd h0 hqdvd) hq.pos
  rw [← Nat.factorization_le_iff_dvd hr.ne' hpos2.ne']
  intro p
  rw [Nat.factorization_div hqdvd]
  rw [Finsupp.tsub_apply, hq.factorization, Finsupp.single_apply]
  by_cases hpq : q = p
  · subst hpq
    rw [if_pos rfl]
    omega
  · rw [if_neg hpq]
    have := (Nat.factorization_le_iff_dvd hr.ne' h0.ne').mpr hdvd p
    omega

theorem shave_factorization_other (q k rp p : ℕ) (hq : Nat.Prime q)
    (hp : p ≠ q) (h0 : 0 < rp) (hk : q ^ k ∣ rp) :
    (rp / q ^ k).factorization p = rp.factorization p := by
  rw [Nat.factorization_div hk, hq.factorization_pow, Finsupp.tsub_apply,
    Finsupp.single_apply, if_neg (fun h => hp h.symm)]
  omega

theorem shaveFold_spec (r : ℕ) (hr : 0 < r) :
    ∀ (l : List ℕ), (∀ q ∈ l, Nat.Prime q) → l.Nodup →
    ∀ rp, 0 < rp → r ∣ rp →
      0 < l.foldl (fun rp q => shaveAux r q rp rp) rp ∧
      l.foldl (fun rp q => shaveAux r q rp rp) rp ∣ rp ∧
      r ∣ l.foldl (fun rp q => shaveAux r q rp rp) rp ∧
      (∀ q ∈ l, (l.foldl (fun rp q => shaveAux r q rp rp) rp).factorization q =
        r.factorization q) ∧
      (∀ p, p ∉ l → (l.foldl (fun rp q => shaveAux r q rp rp) rp).factorization p =
        rp.factorization p) := by
  intro l
  induction l with
  | nil =>
      intro _ _ rp hpos hdvd
      exact ⟨hpos, dvd_refl rp, hdvd, by simp, fun p _ => rfl⟩
  | cons q rest ih =>
      intro hl hnd rp hpos hdvd
      have hq := hl q (List.mem_cons_self q rest)
      have hnd2 := List.nodup_cons.mp hnd
      obtain ⟨k, hk1, hk2, hk3, hk4⟩ := shaveAux_spec r q hq.two_le rp rp le_rfl hpos hdvd
      have h1pos : 0 < rp / q ^ k :=
        Nat.div_pos (Nat.le_of_dvd hpos hk1) (pow_pos hq.pos k)
      have hstep : (q :: rest).foldl (fun rp q => shaveAux r q rp rp) rp =
          rest.foldl (fun rp q => shaveAux r q rp rp) (rp / q ^ k) := by
        rw [List.foldl_cons, hk2]
      obtain ⟨ih1, ih2, ih3, ih4, ih5⟩ :=
        ih (fun x hx => hl x (List.mem_cons_of_mem q hx)) hnd2.2 (rp / q ^ k) h1pos hk3
      rw [hstep]
      refine ⟨ih1, dvd_trans ih2 (Nat.div_dvd_of_dvd hk1), ih3, ?_, ?_⟩
      · intro x hx
        rcases List.mem_cons.mp hx with rfl | hx2
        · rw [ih5 x hnd2.1]
          exact stop_factorization r x _ hq h1pos hr hk3 hk4
        · exact ih4 x hx2
      · intro p hp
        have hpq : p ≠ q := fun h => hp (h ▸ List.mem_cons_self q rest)
        have hprest : p ∉ rest := fun h => hp (List.mem_cons_of_mem q h)
        rw [ih5 p hprest]
        exact shave_factorization_other q k rp p hq hpq hpos hk1

theorem shaveFold_zero (r : ℕ) (l : List ℕ) :
    l.foldl (fun rp q => shaveAux r q rp rp) 0 = 0 := by
  induction l with
  | nil => rfl
  | cons q rest ih => simpa [shaveAux] using ih

theorem smooth_r_dvd (r r_tilde d cap : ℕ) (hr : 0 < r)
    (hs : cmSmooth cap d) (hd : r = d * r_tilde) :
    r ∣ r_tilde * prime_power_product cap := by
  have hd0 : 0 < d := by
    rcases Nat.eq_zero_or_pos d with h | h
    · subst h; simp at hd; omega
    · exact h
  obtain ⟨w, hw⟩ := cmSmooth_dvd_ppp cap d hd0 hs
  exact ⟨w, by rw [hw, hd]; ring⟩

theorem algorithm2_eq_order (r r_tilde m c : ℕ) (hr : 0 < r)
    (hsm : ∃ d, cmSmooth (c * m) d ∧ r = d * r_tilde) :
    algorithm2 r r_tilde m c = some r := by
  obtain ⟨d, hs, hd⟩ := hsm
  have hguard := smooth_r_dvd r r_tilde d (c * m) hr hs hd
  have hd0 : 0 < d := by
    rcases Nat.eq_zero_or_pos d with h | h
    · subst h; simp at hd; omega
    · exact h
  have ht0 : 0 < r_tilde := by
    rcases Nat.eq_zero_or_pos r_tilde with h | h
    · subst h; simp at hd; omega
    · exact h
  have hP := prime_power_product_pos (c * m)
  rw [algorithm2, if_pos hguard]
  obtain ⟨h1, h2, h3, h4, h5⟩ := shaveFold_spec r hr (prime_range (c * m + 1))
    (fun q hq => ((mem_prime_range _ _).mp hq).1) (prime_range_nodup _)
    (r_tilde * prime_power_product (c * m)) (by positivity) hguard
  congr 1
  set rp2 := (prime_range (c * m + 1)).foldl (fun rp q => shaveAux r q rp rp)
    (r_tilde * prime_power_product (c * m)) with hrp2
  refine Nat.dvd_antisymm ?_ h3
  rw [← Nat.factorization_le_iff_dvd h1.ne' hr.ne']
  intro p
  by_cases hp : Nat.Prime p
  · by_cases hmem : p ∈ prime_range (c * m + 1)
    · rw [h4 p hmem]
    · have hple : rp2.factorization p ≤
          (r_tilde * prime_power_product (c * m)).factorization p :=
        (Nat.factorization_le_iff_dvd h1.ne' (by positivity)).mpr h2 p
      rw [Nat.factorization_mul ht0.ne' hP.ne', Finsupp.add_apply] at hple
      have hPfact : (prime_power_product (c * m)).factorization p = 0 := by
        rw [ppp_factorization, if_neg hmem]
      have hrfact : r_tilde.factorization p ≤ r.factorization p := by
        have : r_tilde ∣ r := ⟨d, by rw [hd]; ring⟩
        exact (Nat.factorization_le_iff_dvd ht0.ne' hr.ne').mpr this p
      omega
  · rw [Nat.factorization_eq_zero_of_non_prime _ hp]
    omega

theorem algorithm2_dvd (r r_tilde m c rp : ℕ) (hr : 0 < r)
    (h : algorithm2 r r_tilde m c = some rp) : r ∣ rp := by
  rw [algorithm2] at h
  by_cases hguard : r ∣ r_tilde * prime_power_product (c * m)
  · rw [if_pos hguard] at h
    rcases Nat.eq_zero_or_pos (r_tilde * prime_power_product (c * m)) with h0 | hpos
    · rw [h0, shaveFold_zero] at h
      simp only [Option.some.injEq] at h
      subst h
      exact dvd_zero r
    · obtain ⟨_, _, h3, _, _⟩ := shaveFold_spec r hr (prime_range (c * m + 1))
        (fun q hq => ((mem_prime_range _ _).mp hq).1) (prime_range_nodup _)
        _ hpos hguard
      simp only [Option.some.injEq] at h
      subst h
      exact h3
  · rw [if_neg hguard] at h
    simp at h

theorem leastSat_spec (p : ℕ → Bool) :
    ∀ fuel i, p (i + fuel) = true →
      p (leastSat p fuel i) = true ∧ i ≤ leastSat p fuel i ∧
      leastSat p fuel i ≤ i + fuel ∧
      (∀ j, i ≤ j → j < leastSat p fuel i → p j = false) := by
  intro fuel
  induction fuel with
  | zero =>
      intro i hp
      rw [leastSat]
      exact ⟨by simpa using hp, le_rfl, by omega, fun j h1 h2 => by omega⟩
  | succ fuel ih =>
      intro i hp
      rw [leastSat]
      by_cases hpi : p i = true
      · rw [if_pos hpi]
        exact ⟨hpi, le_rfl, by omega, fun j h1 h2 => by omega⟩
      · rw [if_neg hpi]
        obtain ⟨h1, h2, h3, h4⟩ := ih (i + 1) (by rw [show i + 1 + fuel = i + (fuel + 1) by omega]; exact hp)
        refine ⟨h1, by omega, by omega, fun j hj1 hj2 => ?_⟩
        rcases Nat.eq_or_lt_of_le hj1 with rfl | hlt
        · simpa using hpi
        · exact h4 j (by omega) hj2

theorem foldl_mul_eq_prod (l : List ℕ) (f : ℕ → ℕ) :
    ∀ acc, l.foldl (fun acc q => acc * f q) acc = acc * (l.map f).prod := by
  induction l with
  | nil => intro acc; simp
  | cons q rest ih =>
      intro acc
      rw [List.foldl_cons, ih, List.map_cons, List.prod_cons]
      ring

theorem ppp_ordProj_dvd (B q : ℕ) (hmem : q ∈ prime_range (B + 1)) :
    q ^ maxPowExp q B ∣ prime_power_product B := by
  have h := Nat.ordProj_dvd (prime_power_product B) q
  rwa [ppp_factorization, if_pos hmem] at h

theorem a3_pred_at_top (r r_tilde B q : ℕ) (hmem : q ∈ prime_range (B + 1))
    (hguard : r ∣ r_tilde * prime_power_product B) :
    r ∣ r_tilde * (prime_power_product B / q ^ maxPowExp q B) * q ^ maxPowExp q B := by
  rwa [mul_assoc, Nat.div_mul_cancel (ppp_ordProj_dvd B q hmem)]

theorem a3_factorization_X (r_tilde B q i p2 : ℕ) (hq : Nat.Prime q)
    (ht0 : 0 < r_tilde) (hmem : q ∈ prime_range (B + 1)) :
    (r_tilde * (prime_power_product B / q ^ maxPowExp q B) * q ^ i).factorization p2 =
      r_tilde.factorization p2 +
        ((prime_power_product B).factorization p2 - (if q = p2 then maxPowExp q B else 0)) +
        (if q = p2 then i else 0) := by
  have hP := prime_power_product_pos B
  have hqe := ppp_ordProj_dvd B q hmem
  have hdiv0 : 0 < prime_power_product B / q ^ maxPowExp q B :=
    Nat.div_pos (Nat.le_of_dvd hP hqe) (pow_pos hq.pos _)
  rw [Nat.factorization_mul (mul_ne_zero ht0.ne' hdiv0.ne') (pow_ne_zero _ hq.pos.ne'),
    Nat.factorization_mul ht0.ne' hdiv0.ne', Nat.factorization_div hqe,
    hq.factorization_pow, hq.factorization_pow]
  simp [Finsupp.add_apply, Finsupp.tsub_apply, Finsupp.single_apply]

theorem a3_pred_imp (r r_tilde B q i : ℕ) (hq : Nat.Prime q) (hr : 0 < r)
    (ht0 : 0 < r_tilde) (hmem : q ∈ prime_range (B + 1))
    (hpred : r ∣ r_tilde * (prime_power_product B / q ^ maxPowExp q B) * q ^ i) :
    r.factorization q ≤ r_tilde.factorization q + i := by
  have hP := prime_power_product_pos B
  have hqe := ppp_ordProj_dvd B q hmem
  have hdiv0 : 0 < prime_power_product B / q ^ maxPowExp q B :=
    Nat.div_pos (Nat.le_of_dvd hP hqe) (pow_pos hq.pos _)
  have hX0 : r_tilde * (prime_power_product B / q ^ maxPowExp q B) * q ^ i ≠ 0 :=
    mul_ne_zero (mul_ne_zero ht0.ne' hdiv0.ne') (pow_ne_zero _ hq.pos.ne')
  have hle := (Nat.factorization_le_iff_dvd hr.ne' hX0).mpr hpred q
  rw [a3_factorization_X r_tilde B q i q hq ht0 hmem, if_pos rfl, if_pos rfl,
    ppp_factorization, if_pos hmem] at hle
  omega

theorem a3_pred_iff_smooth (r r_tilde B q i d : ℕ) (hq : Nat.Prime q) (hr : 0 < r)
    (hd : r = d * r_tilde) (hs : cmSmooth B d) (hmem : q ∈ prime_range (B + 1)) :
    (r ∣ r_tilde * (prime_power_product B / q ^ maxPowExp q B) * q ^ i) ↔
      d.factorization q ≤ i := by
  have hd0 : 0 < d := by
    rcases Nat.eq_zero_or_pos d with h | h
    · subst h; simp at hd; omega
    · exact h
  have ht0 : 0 < r_tilde := by
    rcases Nat.eq_zero_or_pos r_tilde with h | h
    · subst h; simp at hd; omega
    · exact h
  have hP := prime_power_product_pos B
  have hqe := ppp_ordProj_dvd B q hmem
  have hdiv0 : 0 < prime_power_product B / q ^ maxPowExp q B :=
    Nat.div_pos (Nat.le_of_dvd hP hqe) (pow_pos hq.pos _)
  have hX0 : r_tilde * (prime_power_product B / q ^ maxPowExp q B) * q ^ i ≠ 0 :=
    mul_ne_zero (mul_ne_zero ht0.ne' hdiv0.ne') (pow_ne_zero _ hq.pos.ne')
  have hrfact : ∀ p2, r.factorization p2 = d.factorization p2 + r_tilde.factorization p2 := by
    intro p2
    rw [hd, Nat.factorization_mul hd0.ne' ht0.ne', Finsupp.add_apply]
  have hdP : ∀ p2, d.factorization p2 ≤ (prime_power_product B).factorization p2 :=
    fun p2 => (Nat.factorization_le_iff_dvd hd0.ne' hP.ne').mpr
      (cmSmooth_dvd_ppp B d hd0 hs) p2
  constructor
  · intro hpred
    have := a3_pred_imp r r_tilde B q i hq hr ht0 hmem hpred
    have := hrfact q
    omega
  · intro hile
    rw [← Nat.factorization_le_iff_dvd hr.ne' hX0]
    intro p2
    rw [a3_factorization_X r_tilde B q i p2 hq ht0 hmem]
    by_cases hp2 : q = p2
    · subst hp2
      rw [if_pos rfl, if_pos rfl, ppp_factorization, if_pos hmem]
      have := hrfact q
      omega
    · rw [if_neg hp2, if_neg hp2]
      have := hrfact p2
      have := hdP p2
      omega

theorem prod_pow_factorization_eq_self (d B : ℕ) (hd0 : 0 < d) (hs : cmSmooth B d) :
    ((prime_range (B + 1)).map (fun q => q ^ d.factorization q)).prod = d := by
  rw [← List.prod_toFinset _ (prime_range_nodup (B + 1))]
  have hsub : d.primeFactors ⊆ (prime_range (B + 1)).toFinset := by
    intro p hp
    have hpp := Nat.prime_of_mem_primeFactors hp
    have hν : 1 ≤ d.factorization p := by
      rw [← Nat.support_factorization] at hp
      have := Finsupp.mem_support_iff.mp hp
      omega
    have hple : p ≤ B := by
      have h1 : p ≤ p ^ d.factorization p := Nat.le_self_pow (by omega) p
      have h2 := hs p hp
      omega
    rw [List.mem_toFinset, mem_prime_range]
    exact ⟨hpp, by omega⟩
  have hout : ∀ x ∈ (prime_range (B + 1)).toFinset, x ∉ d.primeFactors →
      x ^ d.factorization x = 1 := by
    intro x _ hx
    rw [← Nat.support_factorization, Finsupp.not_mem_support_iff] at hx
    rw [hx, pow_zero]
  rw [← Finset.prod_subset hsub hout]
  have := Nat.factorization_prod_pow_eq_self hd0.ne'
  rw [Finsupp.prod, Nat.support_factorization] at this
  exact this

theorem algorithm3_eq_order (r r_tilde m c : ℕ) (hr : 0 < r)
    (hsm : ∃ d, cmSmooth (c * m) d ∧ r = d * r_tilde) :
    algorithm3 r r_tilde m c = some r := by
  obtain ⟨d, hs, hd⟩ := hsm
  have hguard := smooth_r_dvd r r_tilde d (c * m) hr hs hd
  have hd0 : 0 < d := by
    rcases Nat.eq_zero_or_pos d with h | h
    · subst h; simp at hd; omega
    · exact h
  have ht0 : 0 < r_tilde := by
    rcases Nat.eq_zero_or_pos r_tilde with h | h
    · subst h; simp at hd; omega
    · exact h
  rw [algorithm3, if_pos hguard]
  congr 1
  rw [foldl_mul_eq_prod, one_mul]
  have hcongr : (prime_range (c * m + 1)).map (fun q =>
      q ^ leastSat (fun i => decide (r ∣ r_tilde *
        (prime_power_product (c * m) / q ^ maxPowExp q (c * m)) * q ^ i))
        (maxPowExp q (c * m)) 0) =
      (prime_range (c * m + 1)).map (fun q => q ^ d.factorization q) := by
    refine List.map_congr_left ?_
    intro q hq
    have hqp := ((mem_prime_range _ _).mp hq).1
    have htop : (fun i => decide (r ∣ r_tilde *
        (prime_power_product (c * m) / q ^ maxPowExp q (c * m)) * q ^ i))
        (0 + maxPowExp q (c * m)) = true := by
      simpa using a3_pred_at_top r r_tilde (c * m) q hq hguard
    obtain ⟨h1, _, _, h4⟩ := leastSat_spec (fun i => decide (r ∣ r_tilde *
      (prime_power_product (c * m) / q ^ maxPowExp q (c * m)) * q ^ i))
      (maxPowExp q (c * m)) 0 htop
    simp only [decide_eq_true_eq] at h1
    congr 1
    have hub : d.factorization q ≤ leastSat (fun i => decide (r ∣ r_tilde *
        (prime_power_product (c * m) / q ^ maxPowExp q (c * m)) * q ^ i))
        (maxPowExp q (c * m)) 0 :=
      (a3_pred_iff_smooth r r_tilde (c * m) q _ d hqp hr hd hs hq).mp h1
    rcases Nat.eq_or_lt_of_le hub with heq | hlt
    · exact heq.symm
    · exfalso
      have hfalse := h4 (d.factorization q) (by omega) hlt
      simp only [decide_eq_false_iff_not] at hfalse
      exact hfalse ((a3_pred_iff_smooth r r_tilde (c * m) q _ d hqp hr hd hs hq).mpr le_rfl)
  rw [hcongr, prod_pow_factorization_eq_self d (c * m) hd0 hs, hd]
  ring

theorem algorithm3_dvd (r r_tilde m c rp : ℕ) (hr : 0 < r)
    (h : algorithm3 r r_tilde m c = some rp) : r ∣ rp := by
  rw [algorithm3] at h
  by_cases hguard : r ∣ r_tilde * prime_power_product (c * m)
  swap
  · rw [if_neg hguard] at h; simp at h
  rw [if_pos hguard] at h
  simp only [Option.some.injEq] at h
  subst h
  rcases Nat.eq_zero_or_pos r_tilde with ht0 | ht0
  · subst ht0; simp
  rw [foldl_mul_eq_prod, one_mul]
  set F := fun q => leastSat (fun i => decide (r ∣ r_tilde *
    (prime_power_product (c * m) / q ^ maxPowExp q (c * m)) * q ^ i))
    (maxPowExp q (c * m)) 0 with hF
  have hprod0 : 0 < ((prime_range (c * m + 1)).map (fun q => q ^ F q)).prod := by
    refine List.prod_pos ?_
    intro a ha
    obtain ⟨x, hx, rfl⟩ := List.mem_map.mp ha
    exact pow_pos ((mem_prime_range _ _).mp hx).1.pos _
  rw [← Nat.factorization_le_iff_dvd hr.ne' (mul_ne_zero ht0.ne' hprod0.ne')]
  intro p2
  by_cases hp2 : Nat.Prime p2
  swap
  · rw [Nat.factorization_eq_zero_of_non_prime _ hp2]
    omega
  rw [Nat.factorization_mul ht0.ne' hprod0.ne', Finsupp.add_apply,
    listprod_pow_factorization _ F (fun q hq => ((mem_prime_range _ _).mp hq).1)
      (prime_range_nodup _) p2]
  by_cases hmem : p2 ∈ prime_range (c * m + 1)
  · rw [if_pos hmem]
    have htop : (fun i => decide (r ∣ r_tilde *
        (prime_power_product (c * m) / p2 ^ maxPowExp p2 (c * m)) * p2 ^ i))
        (0 + maxPowExp p2 (c * m)) = true := by
      simpa using a3_pred_at_top r r_tilde (c * m) p2 hmem hguard
    obtain ⟨h1, _, _, _⟩ := leastSat_spec (fun i => decide (r ∣ r_tilde *
      (prime_power_product (c * m) / p2 ^ maxPowExp p2 (c * m)) * p2 ^ i))
      (maxPowExp p2 (c * m)) 0 htop
    simp only [decide_eq_true_eq] at h1
    have := a3_pred_imp r r_tilde (c * m) p2 (F p2) hp2 hr ht0 hmem h1
    omega
  · rw [if_neg hmem]
    have hle := (Nat.factorization_le_iff_dvd hr.ne'
      (mul_ne_zero ht0.ne' (prime_power_product_pos (c * m)).ne')).mpr hguard p2
    rw [Nat.factorization_mul ht0.ne' (prime_power_product_pos (c * m)).ne',
      Finsupp.add_apply, ppp_factorization, if_neg hmem] at hle
    omega

/-- C1 counterexample: at r = 4, r_tilde = 6, m = 3, c = 1 no cm-smooth
d with r = d * r_tilde exists, yet algorithm1 returns 36 rather than the
absent value, because r divides r_tilde times the prime-power product. -/
theorem C1_cex :
    (0 < 4 ∧ 4 < 2 ^ 3 ∧ 1 ≤ 1 ∧ ¬ (∃ d, cmSmooth (1 * 3) d ∧ 4 = d * 6)) ∧
    algorithm1 4 6 3 1 = some 36 := by
  refine ⟨⟨by norm_num, by norm_num, le_rfl, ?_⟩, by decide⟩
  rintro ⟨d, -, h⟩
  omega

/-- C1 (amended): for a group element of order r with r below 2 ^ m and
c at least 1: whenever some cm-smooth d with r = d * r_tilde exists,
algorithm1 returns the positive multiple r_tilde * P of r and algorithm2
and algorithm3 return exactly r; on every input, a non-absent return
value of any of the three algorithms is a multiple of r, so the
corresponding power of g is the identity; and each algorithm returns the
absent value exactly when r does not divide r_tilde * P, for P the
cm-smooth prime-power product. -/
theorem C1_smooth_reconstruction (r r_tilde m c : ℕ) (hr : 0 < r)
    (hm : r < 2 ^ m) (hc : 1 ≤ c) :
    ((∃ d, cmSmooth (c * m) d ∧ r = d * r_tilde) →
      algorithm1 r r_tilde m c = some (r_tilde * prime_power_product (c * m)) ∧
      r ∣ r_tilde * prime_power_product (c * m) ∧
      0 < r_tilde * prime_power_product (c * m) ∧
      algorithm2 r r_tilde m c = some r ∧
      algorithm3 r r_tilde m c = some r) ∧
    (∀ rp, algorithm1 r r_tilde m c = some rp → r ∣ rp) ∧
    (∀ rp, algorithm2 r r_tilde m c = some rp → r ∣ rp) ∧
    (∀ rp, algorithm3 r r_tilde m c = some rp → r ∣ rp) ∧
    (algorithm1 r r_tilde m c = none ↔ ¬ r ∣ r_tilde * prime_power_product (c * m)) ∧
    (algorithm2 r r_tilde m c = none ↔ ¬ r ∣ r_tilde * prime_power_product (c * m)) ∧
    (algorithm3 r r_tilde m c = none ↔ ¬ r ∣ r_tilde * prime_power_product (c * m)) := by
  refine ⟨?_, ?_, ?_, ?_, ?_, ?_, ?_⟩
  · rintro ⟨d, hs, hd⟩
    have hguard := smooth_r_dvd r r_tilde d (c * m) hr hs hd
    have ht0 : 0 < r_tilde := by
      rcases Nat.eq_zero_or_pos r_tilde with h | h
      · subst h; simp at hd; omega
      · exact h
    refine ⟨?_, hguard, ?_, ?_, ?_⟩
    · rw [algorithm1, if_pos hguard]
    · have := prime_power_product_pos (c * m)
      positivity
    · exact algorithm2_eq_order r r_tilde m c hr ⟨d, hs, hd⟩
    · exact algorithm3_eq_order r r_tilde m c hr ⟨d, hs, hd⟩
  · intro rp h
    rw [algorithm1] at h
    by_cases hguard : r ∣ r_tilde * prime_power_product (c * m)
    · rw [if_pos hguard] at h
      simp only [Option.some.injEq] at h
      exact h ▸ hguard
    · rw [if_neg hguard] at h; simp at h
  · exact fun rp h => algorithm2_dvd r r_tilde m c rp hr h
  · exact fun rp h => algorithm3_dvd r r_tilde m c rp hr h
  · rw [algorithm1]
    by_cases hguard : r ∣ r_tilde * prime_power_product (c * m) <;>
      simp [hguard]
  · rw [algorithm2]
    by_cases hguard : r ∣ r_tilde * prime_power_product (c * m) <;>
      simp [hguard]
  · rw [algorithm3]
    by_cases hguard : r ∣ r_tilde * prime_power_product (c * m) <;>
      simp [hguard]

/-- Witness for C1 at r = 6, r_tilde = 3, d = 2, m = 3, c = 1. -/
theorem C1_smooth_reconstruction_witness :
    (0 < 6 ∧ 6 < 2 ^ 3 ∧ 1 ≤ 1 ∧ (∃ d, cmSmooth (1 * 3) d ∧ 6 = d * 3)) ∧
    (algorithm1 6 3 3 1 = some (3 * prime_power_product (1 * 3)) ∧
      6 ∣ 3 * prime_power_product (1 * 3) ∧
      0 < 3 * prime_power_product (1 * 3) ∧
      algorithm2 6 3 3 1 = some 6 ∧
      algorithm3 6 3 3 1 = some 6) := by
  have hsmooth : cmSmooth (1 * 3) 2 := by
    intro p hp
    rw [Nat.Prime.primeFactors Nat.prime_two, Finset.mem_singleton] at hp
    subst hp
    rw [Nat.Prime.factorization_self Nat.prime_two]
    norm_num
  exact ⟨⟨by norm_num, by norm_num, le_rfl, ⟨2, hsmooth, by norm_num⟩⟩,
    (C1_smooth_reconstruction 6 3 3 1 (by norm_num) (by norm_num) le_rfl).1
      ⟨2, hsmooth, by norm_num⟩⟩

theorem splitFactorAux_prod (d : ℕ) :
    ∀ fuel f, f ≤ fuel + 1 → (splitFactorAux d fuel f).prod = f := by
  intro fuel
  induction fuel with
  | zero => intro f _; simp [splitFactorAux]
  | succ fuel ih =>
      intro f hle
      rw [splitFactorAux]
      by_cases hg : Nat.gcd f d = 1 ∨ Nat.gcd f d = f ∨ f = 0
      · rw [if_pos hg]; simp
      · rw [if_neg hg]
        push_neg at hg
        obtain ⟨hg1, hgf, hf0⟩ := hg
        have hgdvd : Nat.gcd f d ∣ f := Nat.gcd_dvd_left f d
        have hgpos : 0 < Nat.gcd f d := by
          rcases Nat.eq_zero_or_pos (Nat.gcd f d) with h | h
          · exact absurd (Nat.eq_zero_of_gcd_eq_zero_left h) hf0
          · exact h
        have hglt : Nat.gcd f d < f :=
          lt_of_le_of_ne (Nat.le_of_dvd (Nat.pos_of_ne_zero hf0) hgdvd) hgf
        have hdivlt : f / Nat.gcd f d < f :=
          Nat.div_lt_self (Nat.pos_of_ne_zero hf0) (by omega)
        rw [List.prod_append, ih _ (by omega), ih _ (by omega)]
        exact Nat.mul_div_cancel' hgdvd

theorem splitFactorAux_gt_one (d : ℕ) :
    ∀ fuel f, 1 < f → ∀ x ∈ splitFactorAux d fuel f, 1 < x := by
  intro fuel
  induction fuel with
  | zero => intro f hf x hx; simp [splitFactorAux] at hx; omega
  | succ fuel ih =>
      intro f hf x hx
      rw [splitFactorAux] at hx
      by_cases hg : Nat.gcd f d = 1 ∨ Nat.gcd f d = f ∨ f = 0
      · rw [if_pos hg] at hx; simp at hx; omega
      · rw [if_neg hg] at hx
        push_neg at hg
        obtain ⟨hg1, hgf, hf0⟩ := hg
        have hgdvd : Nat.gcd f d ∣ f := Nat.gcd_dvd_left f d
        have hgpos : 0 < Nat.gcd f d := by
          rcases Nat.eq_zero_or_pos (Nat.gcd f d) with h | h
          · exact absurd (Nat.eq_zero_of_gcd_eq_zero_left h) hf0
          · exact h
        have hglt : Nat.gcd f d < f :=
          lt_of_le_of_ne (Nat.le_of_dvd (Nat.pos_of_ne_zero hf0) hgdvd) hgf
        have hq2 : 2 ≤ f / Nat.gcd f d := by
          obtain ⟨s, hs⟩ := hgdvd
          have hfg : f / Nat.gcd f d = s := by
            refine Nat.div_eq_of_eq_mul_left hgpos ?_
            nth_rewrite 1 [hs]
            ring
          have hs0 : s ≠ 0 := by
            rintro rfl
            rw [mul_zero] at hs
            exact hf0 hs
          have hs1 : s ≠ 1 := by
            rintro rfl
            rw [mul_one] at hs
            exact hgf hs.symm
          omega
        rcases List.mem_append.mp hx with hx2 | hx2
        · exact ih _ (by omega) x hx2
        · exact ih _ hq2 x hx2

theorem fcAdd_prod (factors : List ℕ) (d : ℕ) :
    (FactorCollection.add factors d).prod = factors.prod := by
  induction factors with
  | nil => rfl
  | cons f rest ih =>
      rw [FactorCollection.add, List.flatMap_cons, List.prod_append]
      rw [FactorCollection.add] at ih
      rw [ih]
      congr 1
      by_cases hp : isPrimeB f
      · rw [if_pos hp]; simp
      · rw [if_neg hp]
        exact splitFactorAux_prod d f f (by omega)

theorem fcAdd_gt_one (factors : List ℕ) (d : ℕ)
    (h : ∀ f ∈ factors, 1 < f) :
    ∀ x ∈ FactorCollection.add factors d, 1 < x := by
  intro x hx
  rw [FactorCollection.add, List.mem_flatMap] at hx
  obtain ⟨f, hf, hxf⟩ := hx
  by_cases hp : isPrimeB f
  · rw [if_pos hp] at hxf
    simp at hxf
    rw [hxf]
    exact h f hf
  · rw [if_neg hp] at hxf
    exact splitFactorAux_gt_one d f f (h f hf) x hxf

theorem foldl_fcAdd_prod (ds : List ℕ) :
    ∀ factors, (ds.foldl FactorCollection.add factors).prod = factors.prod := by
  induction ds with
  | nil => intro factors; rfl
  | cons d rest ih => intro factors; rw [List.foldl_cons, ih, fcAdd_prod]

theorem foldl_fcAdd_gt_one (ds : List ℕ) :
    ∀ factors, (∀ f ∈ factors, 1 < f) →
      ∀ x ∈ ds.foldl FactorCollection.add factors, 1 < x := by
  induction ds with
  | nil => intro factors h; exact h
  | cons d rest ih =>
      intro factors h
      rw [List.foldl_cons]
      exact ih _ (fcAdd_gt_one factors d h)

theorem list_primeFactors (l : List ℕ) (hl : ∀ p ∈ l, Nat.Prime p) :
    (l.prod).primeFactors = l.toFinset := by
  induction l with
  | nil => simp
  | cons p rest ih =>
      have hp := hl p (List.mem_cons_self p rest)
      have hrest : ∀ x ∈ rest, Nat.Prime x := fun x hx => hl x (List.mem_cons_of_mem p hx)
      have hr0 : rest.prod ≠ 0 :=
        (List.prod_pos (fun a ha => (hrest a ha).pos)).ne'
      rw [List.prod_cons, Nat.primeFactors_mul hp.pos.ne' hr0, ih hrest,
        hp.primeFactors, List.toFinset_cons, Finset.insert_eq]

theorem complete_toFinset (factors : List ℕ) (N : ℕ)
    (hprod : factors.prod = N)
    (hc : FactorCollection.complete factors = true) :
    factors.toFinset = N.primeFactors := by
  have hall : ∀ p ∈ factors, Nat.Prime p := by
    intro p hp
    rw [FactorCollection.complete, List.all_eq_true] at hc
    exact (isPrimeB_iff p).mp (hc p hp)
  rw [← hprod, list_primeFactors factors hall]

theorem not_complete_not_all_prime (factors : List ℕ)
    (hc : ¬ FactorCollection.complete factors = true) :
    ¬ (∀ f ∈ factors, Nat.Prime f) := by
  intro hall
  refine hc ?_
  rw [FactorCollection.complete, List.all_eq_true]
  exact fun f hf => (isPrimeB_iff f).mpr (hall f hf)

theorem solveRAux_spec (r N c : ℕ) :
    ∀ (xs : List ℕ) (factors : List ℕ) (k tmo : Option ℕ),
      factors.prod = N → (∀ f ∈ factors, 1 < f) →
      (∀ s, solveRAux r N c factors k tmo xs = Except.ok s → s = N.primeFactors) ∧
      (∀ pfs, solveRAux r N c factors k tmo xs = Except.error pfs →
        pfs.prod = N ∧ (∀ f ∈ pfs, 1 < f) ∧ ¬ (∀ f ∈ pfs, Nat.Prime f)) := by
  intro xs
  induction xs with
  | nil =>
      intro factors k tmo hprod hgt
      rw [solveRAux]
      by_cases hc : FactorCollection.complete factors = true
      · rw [if_pos hc]
        constructor
        · intro s hs
          simp only [Except.ok.injEq] at hs
          rw [← hs]
          exact complete_toFinset factors N hprod hc
        · intro pfs hpfs
          simp at hpfs
      · rw [if_neg hc]
        have herr : ∀ pfs : List ℕ,
            (if tmo = some 0 then Except.error (ε := List ℕ) (α := Finset ℕ) factors
              else if k = some 0 then Except.error factors
              else Except.error factors) = Except.error pfs →
            pfs.prod = N ∧ (∀ f ∈ pfs, 1 < f) ∧ ¬ (∀ f ∈ pfs, Nat.Prime f) := by
          intro pfs hpfs
          have hfe : pfs = factors := by
            by_cases h1 : tmo = some 0
            · rw [if_pos h1] at hpfs; simpa using hpfs.symm
            · rw [if_neg h1] at hpfs
              by_cases h2 : k = some 0
              · rw [if_pos h2] at hpfs; simpa using hpfs.symm
              · rw [if_neg h2] at hpfs; simpa using hpfs.symm
          rw [hfe]
          exact ⟨hprod, hgt, not_complete_not_all_prime factors hc⟩
        constructor
        · intro s hs
          exfalso
          by_cases h1 : tmo = some 0
          · rw [if_pos h1] at hs; simp at hs
          · rw [if_neg h1] at hs
            by_cases h2 : k = some 0
            · rw [if_pos h2] at hs; simp at hs
            · rw [if_neg h2] at hs; simp at hs
        · exact herr
  | cons x rest ih =>
      intro factors k tmo hprod hgt
      rw [solveRAux]
      by_cases hc : FactorCollection.complete factors = true
      · rw [if_pos hc]
        constructor
        · intro s hs
          simp only [Except.ok.injEq] at hs
          rw [← hs]
          exact complete_toFinset factors N hprod hc
        · intro pfs hpfs
          simp at hpfs
      · rw [if_neg hc]
        by_cases h1 : tmo = some 0
        · rw [if_pos h1]
          refine ⟨fun s hs => by simp at hs, fun pfs hpfs => ?_⟩
          have hfe2 : pfs = factors := by simpa using hpfs.symm
          rw [hfe2]
          exact ⟨hprod, hgt, not_complete_not_all_prime factors hc⟩
        · rw [if_neg h1]
          by_cases h2 : k = some 0
          · rw [if_pos h2]
            refine ⟨fun s hs => by simp at hs, fun pfs hpfs => ?_⟩
            have hfe3 : pfs = factors := by simpa using hpfs.symm
            rw [hfe3]
            exact ⟨hprod, hgt, not_complete_not_all_prime factors hc⟩
          · rw [if_neg h2]
            have hprod2 : (factorIteration r N c factors x).prod = N := by
              rw [factorIteration, foldl_fcAdd_prod, hprod]
            have hgt2 : ∀ f ∈ factorIteration r N c factors x, 1 < f := by
              rw [factorIteration]
              exact foldl_fcAdd_gt_one _ _ hgt
            exact ih (factorIteration r N c factors x)
              (k.map (fun i => i - 1)) (tmo.map (fun i => i - 1)) hprod2 hgt2

/-- C3: for every r and every N above 1, solve_r_for_factors returns a
set s only when its FactorCollection has become complete and then s is
exactly the set of all distinct prime factors of N; and when the
explicit iteration limit k or the timeout budget is exhausted before the
factorisation is complete, it fails with IncompleteFactorisation
carrying the partial factor collection, whose product is still N, whose
members all exceed 1, and which is not yet all prime. -/
theorem C3_solve_r_for_factors (r N c : ℕ) (k tmo : Option ℕ) (xs : List ℕ)
    (hN : 1 < N) :
    (∀ s, solve_r_for_factors r N c k tmo xs = Except.ok s → s = N.primeFactors) ∧
    (∀ pfs, solve_r_for_factors r N c k tmo xs = Except.error pfs →
      pfs.prod = N ∧ (∀ f ∈ pfs, 1 < f) ∧ ¬ (∀ f ∈ pfs, Nat.Prime f)) := by
  rw [solve_r_for_factors]
  refine solveRAux_spec r N c xs _ k tmo ?_ ?_
  · rw [fcAdd_prod]; simp
  · refine fcAdd_gt_one [N] _ ?_
    intro f hf
    simp at hf
    omega

/-- Witness for C3 at r = 4, N = 15, k = 1, with the sampled element 2:
the run completes and returns the prime factors of 15. -/
theorem C3_solve_r_for_factors_witness :
    1 < 15 ∧
    (∀ s, solve_r_for_factors 4 15 1 (some 1) none [2] = Except.ok s →
      s = Nat.primeFactors 15) ∧
    (∀ pfs, solve_r_for_factors 4 15 1 (some 1) none [2] = Except.error pfs →
      pfs.prod = 15 ∧ (∀ f ∈ pfs, 1 < f) ∧ ¬ (∀ f ∈ pfs, Nat.Prime f)) :=
  ⟨by norm_num, C3_solve_r_for_factors 4 15 1 (some 1) none [2] (by norm_num)⟩

/-- C10: the convenience solvers return None, without failing, exactly
on the inputs where the order-finding lift is absent; the
IncompleteFactorisation failure can only arise after a multiple of the
order has been found and the factoring phase initiated. -/
theorem C10_solve_j_for_factors (lifted : Option ℕ) (N c : ℕ)
    (k tmo : Option ℕ) (xs : List ℕ) :
    (lifted = none →
      solve_j_for_factors lifted N c k tmo xs = Except.ok none ∧
      solve_j_for_factors_mod_N lifted N c k tmo xs = Except.ok none) ∧
    (∀ pfs, solve_j_for_factors lifted N c k tmo xs = Except.error pfs →
      ∃ r, lifted = some r) ∧
    (∀ pfs, solve_j_for_factors_mod_N lifted N c k tmo xs = Except.error pfs →
      ∃ r, lifted = some r) := by
  match lifted with
  | none =>
      refine ⟨fun _ => ⟨rfl, rfl⟩, ?_, ?_⟩ <;>
        · intro pfs hpfs
          simp [solve_j_for_factors_mod_N, solve_j_for_factors] at hpfs
  | some r =>
      exact ⟨fun h => by simp at h, fun pfs _ => ⟨r, rfl⟩, fun pfs _ => ⟨r, rfl⟩⟩

/-- Witness for C10: with the lift absent the solver returns None; with
a lifted multiple present and a zero iteration limit the factoring phase
fails with the partial collection, so the lift was indeed present. -/
theorem C10_solve_j_for_factors_witness :
    (solve_j_for_factors none 15 1 (some 0) none [] = Except.ok none ∧
      solve_j_for_factors_mod_N none 15 1 (some 0) none [] = Except.ok none) ∧
    (solve_j_for_factors (some 4) 15 1 (some 0) none [] = Except.error [15] ∧
      ∃ r, (some 4 : Option ℕ) = some r) :=
  ⟨(C10_solve_j_for_factors none 15 1 (some 0) none []).1 rfl,
    ⟨rfl, (C10_solve_j_for_factors (some 4) 15 1 (some 0) none []).2.1 [15] rfl⟩⟩

theorem norm2_nonneg (u : ℤ × ℤ) : 0 ≤ norm2 u := by
  have := mul_self_nonneg u.1
  have := mul_self_nonneg u.2
  rw [norm2]
  omega

theorem norm2_eq_zero (u : ℤ × ℤ) (h : norm2 u = 0) : u = 0 := by
  rw [norm2] at h
  have h1 := mul_self_nonneg u.1
  have h2 := mul_self_nonneg u.2
  have hu1 : u.1 * u.1 = 0 := by omega
  have hu2 : u.2 * u.2 = 0 := by omega
  have := mul_self_eq_zero.mp hu1
  have := mul_self_eq_zero.mp hu2
  rw [Prod.ext_iff]
  exact ⟨by assumption, by assumption⟩

theorem intRound_bound (a b : ℤ) (hb : 0 < b) :
    2 * |a - intRound a b * b| ≤ b := by
  have h := Int.ediv_add_emod (2 * a + b) (2 * b)
  have hρ1 : 0 ≤ (2 * a + b) % (2 * b) := Int.emod_nonneg _ (by omega)
  have hρ2 : (2 * a + b) % (2 * b) < 2 * b := Int.emod_lt_of_pos _ (by omega)
  have key : 2 * (a - intRound a b * b) = (2 * a + b) % (2 * b) - b := by
    rw [intRound]
    linear_combination -h
  have habs : |2 * (a - intRound a b * b)| ≤ b := by
    rw [key]
    rw [abs_le]
    omega
  rw [abs_mul] at habs
  rw [show |(2 : ℤ)| = 2 by decide] at habs
  omega

theorem dot2_sub_smul (u v : ℤ × ℤ) (q : ℤ) :
    dot2 u (v - q • u) = dot2 u v - q * norm2 u := by
  simp only [dot2, norm2, Prod.fst_sub, Prod.snd_sub, Prod.smul_fst,
    Prod.smul_snd, smul_eq_mul]
  ring

theorem lagrangeAux_reduced :
    ∀ fuel st, (min (norm2 st.u) (norm2 st.v)).toNat < fuel →
      is_lagrange_reduced ((lagrangeAux fuel st).u, (lagrangeAux fuel st).v) := by
  intro fuel
  induction fuel with
  | zero => intro st h; omega
  | succ fuel ih =>
      intro st hfu
      rw [lagrangeAux]
      set s1 := if norm2 st.v < norm2 st.u then LagState.mk st.v st.u st.mv st.mu
        else st with hs1
      have hmin : norm2 s1.u = min (norm2 st.u) (norm2 st.v) := by
        rw [hs1]
        by_cases hsw : norm2 st.v < norm2 st.u
        · rw [if_pos hsw]; simp; omega
        · rw [if_neg hsw]; simp; omega
      have hle : norm2 s1.u ≤ norm2 s1.v := by
        rw [hs1]
        by_cases hsw : norm2 st.v < norm2 st.u
        · rw [if_pos hsw]; simp; omega
        · rw [if_neg hsw]; simpa using hsw
      set q := intRound (dot2 s1.u s1.v) (norm2 s1.u) with hq
      set v2 := s1.v - q • s1.u with hv2
      by_cases hexit : norm2 s1.u ≤ norm2 v2
      · rw [if_pos hexit]
        refine ⟨by simpa using hexit, ?_⟩
        simp only
        rcases Nat.eq_zero_or_pos (norm2 s1.u).toNat with h0 | hpos
        · have hz : norm2 s1.u = 0 := by
            have := norm2_nonneg s1.u
            omega
          have hu0 : s1.u = 0 := norm2_eq_zero _ hz
          rw [hv2, hu0]
          simp [dot2, norm2]
        · have hnpos : 0 < norm2 s1.u := by omega
          rw [hv2, dot2_sub_smul]
          have := intRound_bound (dot2 s1.u s1.v) (norm2 s1.u) hnpos
          calc 2 * |dot2 s1.u s1.v - q * norm2 s1.u| ≤ norm2 s1.u := by
                rw [hq]; exact this
            _ = norm2 s1.u := rfl
      · rw [if_neg hexit]
        push_neg at hexit
        refine ih _ ?_
        simp only
        have h1 : 0 ≤ norm2 v2 := norm2_nonneg v2
        have h2 : 0 ≤ norm2 s1.u := norm2_nonneg s1.u
        have h3 : min (norm2 v2) (norm2 s1.u) = norm2 v2 := by omega
        have h4 : (norm2 v2).toNat < (norm2 s1.u).toNat := by omega
        have h5 : (norm2 s1.u).toNat ≤ (min (norm2 st.u) (norm2 st.v)).toNat := by
          rw [hmin]
        omega

theorem det2_swap (x y : ℤ × ℤ) : det2 (y, x) = -det2 (x, y) := by
  simp only [det2]
  ring

theorem det2_shear (x y : ℤ × ℤ) (q : ℤ) : det2 (x, y - q • x) = det2 (x, y) := by
  simp only [det2, Prod.fst_sub, Prod.snd_sub, Prod.smul_fst, Prod.smul_snd,
    smul_eq_mul]
  ring

theorem shear_comb (A : (ℤ × ℤ) × (ℤ × ℤ)) (u v mu mv : ℤ × ℤ) (q : ℤ)
    (hu : u = mu.1 • A.1 + mu.2 • A.2) (hv : v = mv.1 • A.1 + mv.2 • A.2) :
    v - q • u = (mv - q • mu).1 • A.1 + (mv - q • mu).2 • A.2 := by
  subst hu hv
  rw [Prod.ext_iff]
  constructor <;>
    · simp only [Prod.fst_add, Prod.snd_add, Prod.fst_sub, Prod.snd_sub,
        Prod.smul_fst, Prod.smul_snd, smul_eq_mul]
      ring

theorem lagrangeAux_inv (A : (ℤ × ℤ) × (ℤ × ℤ)) :
    ∀ fuel st,
      st.u = st.mu.1 • A.1 + st.mu.2 • A.2 →
      st.v = st.mv.1 • A.1 + st.mv.2 • A.2 →
      ((lagrangeAux fuel st).u =
          (lagrangeAux fuel st).mu.1 • A.1 + (lagrangeAux fuel st).mu.2 • A.2 ∧
        (lagrangeAux fuel st).v =
          (lagrangeAux fuel st).mv.1 • A.1 + (lagrangeAux fuel st).mv.2 • A.2) ∧
      (det2 ((lagrangeAux fuel st).mu, (lagrangeAux fuel st).mv) =
          det2 (st.mu, st.mv) ∨
        det2 ((lagrangeAux fuel st).mu, (lagrangeAux fuel st).mv) =
          -det2 (st.mu, st.mv)) := by
  intro fuel
  induction fuel with
  | zero => intro st hu hv; exact ⟨⟨hu, hv⟩, Or.inl rfl⟩
  | succ fuel ih =>
      intro st hu hv
      rw [lagrangeAux]
      set s1 := if norm2 st.v < norm2 st.u then LagState.mk st.v st.u st.mv st.mu
        else st with hs1
      have hs1u : s1.u = s1.mu.1 • A.1 + s1.mu.2 • A.2 := by
        rw [hs1]
        by_cases hsw : norm2 st.v < norm2 st.u
        · rw [if_pos hsw]; exact hv
        · rw [if_neg hsw]; exact hu
      have hs1v : s1.v = s1.mv.1 • A.1 + s1.mv.2 • A.2 := by
        rw [hs1]
        by_cases hsw : norm2 st.v < norm2 st.u
        · rw [if_pos hsw]; exact hu
        · rw [if_neg hsw]; exact hv
      have hs1det : det2 (s1.mu, s1.mv) = det2 (st.mu, st.mv) ∨
          det2 (s1.mu, s1.mv) = -det2 (st.mu, st.mv) := by
        rw [hs1]
        by_cases hsw : norm2 st.v < norm2 st.u
        · rw [if_pos hsw]
          exact Or.inr (det2_swap st.mu st.mv)
        · rw [if_neg hsw]; exact Or.inl rfl
      set q := intRound (dot2 s1.u s1.v) (norm2 s1.u) with hq
      have hv2 : s1.v - q • s1.u =
          (s1.mv - q • s1.mu).1 • A.1 + (s1.mv - q • s1.mu).2 • A.2 :=
        shear_comb A s1.u s1.v s1.mu s1.mv q hs1u hs1v
      have hdet2 : det2 (s1.mu, s1.mv - q • s1.mu) = det2 (s1.mu, s1.mv) :=
        det2_shear s1.mu s1.mv q
      by_cases hexit : norm2 s1.u ≤ norm2 (s1.v - q • s1.u)
      · rw [if_pos hexit]
        refine ⟨⟨hs1u, hv2⟩, ?_⟩
        simp only
        rw [hdet2]
        exact hs1det
      · rw [if_neg hexit]
        obtain ⟨⟨ihu, ihv⟩, ihdet⟩ := ih (LagState.mk (s1.v - q • s1.u) s1.u
          (s1.mv - q • s1.mu) s1.mu) hv2 hs1u
        refine ⟨⟨ihu, ihv⟩, ?_⟩
        have hswap : det2 (s1.mv - q • s1.mu, s1.mu) = -det2 (s1.mu, s1.mv) := by
          rw [det2_swap, hdet2]
        simp only at ihdet hswap
        rcases ihdet with h | h <;> rcases hs1det with h2 | h2 <;>
          rw [h, hswap, h2] <;> simp

theorem span_equiv (A Ap : (ℤ × ℤ) × (ℤ × ℤ)) (a b c d ε : ℤ)
    (hu : Ap.1 = a • A.1 + b • A.2) (hv : Ap.2 = c • A.1 + d • A.2)
    (hdet : a * d - b * c = ε) (hε : ε = 1 ∨ ε = -1) :
    ∀ w, InLat A w ↔ InLat Ap w := by
  intro w
  constructor
  · rintro ⟨x, y, hw⟩
    refine ⟨ε * (x * d - y * c), ε * (y * a - x * b), ?_⟩
    have hε2 : ε * ε = 1 := by rcases hε with h1 | h1 <;> subst h1 <;> norm_num
    rw [hw, hu, hv, Prod.ext_iff]
    constructor
    · simp only [Prod.fst_add, Prod.snd_add, Prod.smul_fst, Prod.smul_snd,
        smul_eq_mul]
      linear_combination (-(ε * (x * A.1.1 + y * A.2.1))) * hdet +
        (-(x * A.1.1 + y * A.2.1)) * hε2
    · simp only [Prod.fst_add, Prod.snd_add, Prod.smul_fst, Prod.smul_snd,
        smul_eq_mul]
      linear_combination (-(ε * (x * A.1.2 + y * A.2.2))) * hdet +
        (-(x * A.1.2 + y * A.2.2)) * hε2
  · rintro ⟨x, y, hw⟩
    refine ⟨x * a + y * c, x * b + y * d, ?_⟩
    rw [hw, hu, hv, Prod.ext_iff]
    constructor <;>
    · simp only [Prod.fst_add, Prod.snd_add, Prod.smul_fst, Prod.smul_snd,
        smul_eq_mul]
      ring

theorem lagrangeRun (A : (ℤ × ℤ) × (ℤ × ℤ)) (st0 : LagState)
    (hu : st0.u = st0.mu.1 • A.1 + st0.mu.2 • A.2)
    (hv : st0.v = st0.mv.1 • A.1 + st0.mv.2 • A.2)
    (hdet : det2 (st0.mu, st0.mv) = 1 ∨ det2 (st0.mu, st0.mv) = -1) :
    is_lagrange_reduced ((lagrangeAux (lagFuel st0) st0).u,
      (lagrangeAux (lagFuel st0) st0).v) ∧
    (lagrangeAux (lagFuel st0) st0).u =
      (lagrangeAux (lagFuel st0) st0).mu.1 • A.1 +
      (lagrangeAux (lagFuel st0) st0).mu.2 • A.2 ∧
    (lagrangeAux (lagFuel st0) st0).v =
      (lagrangeAux (lagFuel st0) st0).mv.1 • A.1 +
      (lagrangeAux (lagFuel st0) st0).mv.2 • A.2 ∧
    (det2 ((lagrangeAux (lagFuel st0) st0).mu, (lagrangeAux (lagFuel st0) st0).mv) = 1 ∨
      det2 ((lagrangeAux (lagFuel st0) st0).mu, (lagrangeAux (lagFuel st0) st0).mv) = -1) ∧
    (∀ w, InLat A w ↔ InLat ((lagrangeAux (lagFuel st0) st0).u,
      (lagrangeAux (lagFuel st0) st0).v) w) := by
  have hred := lagrangeAux_reduced (lagFuel st0) st0 (by rw [lagFuel]; omega)
  obtain ⟨⟨hiu, hiv⟩, hidet⟩ := lagrangeAux_inv A (lagFuel st0) st0 hu hv
  have hdet3 : det2 ((lagrangeAux (lagFuel st0) st0).mu,
      (lagrangeAux (lagFuel st0) st0).mv) = 1 ∨
      det2 ((lagrangeAux (lagFuel st0) st0).mu,
      (lagrangeAux (lagFuel st0) st0).mv) = -1 := by
    rcases hidet with h | h <;> rcases hdet with h2 | h2 <;> rw [h, h2] <;> simp
  refine ⟨hred, hiu, hiv, hdet3, ?_⟩
  refine span_equiv A _ _ _ _ _ _ hiu hiv rfl hdet3

/-- C4: lagrange(A) returns a pair of a Lagrange-reduced basis and
updated multiples: the reduced rows are the multiples applied to the
rows of A, the multiples matrix has determinant 1 or -1, and the
reduced basis spans exactly the lattice of A. -/
theorem C4_lagrange (A : (ℤ × ℤ) × (ℤ × ℤ)) :
    is_lagrange_reduced (lagrange A none).1 ∧
    (lagrange A none).1.1 =
      (lagrange A none).2.1.1 • A.1 + (lagrange A none).2.1.2 • A.2 ∧
    (lagrange A none).1.2 =
      (lagrange A none).2.2.1 • A.1 + (lagrange A none).2.2.2 • A.2 ∧
    (det2 (lagrange A none).2 = 1 ∨ det2 (lagrange A none).2 = -1) ∧
    (∀ w, InLat A w ↔ InLat (lagrange A none).1 w) := by
  have h := lagrangeRun A (LagState.mk A.1 A.2 (1, 0) (0, 1))
    (by rw [Prod.ext_iff]; constructor <;> simp)
    (by rw [Prod.ext_iff]; constructor <;> simp)
    (Or.inl (by simp [det2]))
  exact h

/-- C9 counterexample: with the full-rank but non-unimodular multiples
matrix 2I supplied as the hint, lagrange on the identity basis returns
the basis 2I, which does not span the lattice of A: the vector (1, 0)
lies in the lattice of A but not in the lattice of the returned
basis. -/
theorem C9_cex :
    det2 (((2, 0), (0, 2)) : (ℤ × ℤ) × (ℤ × ℤ)) ≠ 0 ∧
    lagrange ((1, 0), (0, 1)) (some ((2, 0), (0, 2))) =
      (((2, 0), (0, 2)), ((2, 0), (0, 2))) ∧
    InLat (((1, 0), (0, 1)) : (ℤ × ℤ) × (ℤ × ℤ)) (1, 0) ∧
    ¬ InLat ((((2, 0), (0, 2))) : (ℤ × ℤ) × (ℤ × ℤ)) (1, 0) := by
  refine ⟨by decide, by decide, ⟨1, 0, by decide⟩, ?_⟩
  rintro ⟨c, d, h⟩
  have h1 := congrArg Prod.fst h
  simp only [Prod.fst_add, Prod.smul_fst, smul_eq_mul] at h1
  omega

/-- C9 (amended): for every 2 x 2 integer basis A and every multiples
matrix U of determinant 1 or -1 passed as a starting hint, lagrange(A, U)
returns a Lagrange-reduced basis of the lattice spanned by A together
with updated multiples U2 satisfying A2 = U2 * A and det U2 = 1 or -1;
for a merely full-rank U the returned basis is still Lagrange-reduced
and satisfies A2 = U2 * A, but it spans the lattice of U * A, which
differs from that of A when det U is not 1 or -1. -/
theorem C9_lagrange_multiples (A U : (ℤ × ℤ) × (ℤ × ℤ))
    (hU : det2 U = 1 ∨ det2 U = -1) :
    is_lagrange_reduced (lagrange A (some U)).1 ∧
    (lagrange A (some U)).1.1 =
      (lagrange A (some U)).2.1.1 • A.1 + (lagrange A (some U)).2.1.2 • A.2 ∧
    (lagrange A (some U)).1.2 =
      (lagrange A (some U)).2.2.1 • A.1 + (lagrange A (some U)).2.2.2 • A.2 ∧
    (det2 (lagrange A (some U)).2 = 1 ∨ det2 (lagrange A (some U)).2 = -1) ∧
    (∀ w, InLat A w ↔ InLat (lagrange A (some U)).1 w) := by
  have h := lagrangeRun A (LagState.mk (U.1.1 • A.1 + U.1.2 • A.2)
    (U.2.1 • A.1 + U.2.2 • A.2) U.1 U.2) rfl rfl hU
  exact h

/-- Witness for C9 with the basis ((3, 1), (1, 1)) and the unimodular
hint ((1, 1), (0, 1)). -/
theorem C9_lagrange_multiples_witness :
    (det2 (((1, 1), (0, 1)) : (ℤ × ℤ) × (ℤ × ℤ)) = 1 ∨
      det2 (((1, 1), (0, 1)) : (ℤ × ℤ) × (ℤ × ℤ)) = -1) ∧
    (is_lagrange_reduced (lagrange ((3, 1), (1, 1)) (some ((1, 1), (0, 1)))).1 ∧
      (lagrange ((3, 1), (1, 1)) (some ((1, 1), (0, 1)))).1.1 =
        (lagrange ((3, 1), (1, 1)) (some ((1, 1), (0, 1)))).2.1.1 • ((3 : ℤ), (1 : ℤ)) +
        (lagrange ((3, 1), (1, 1)) (some ((1, 1), (0, 1)))).2.1.2 • ((1 : ℤ), (1 : ℤ)) ∧
      (lagrange ((3, 1), (1, 1)) (some ((1, 1), (0, 1)))).1.2 =
        (lagrange ((3, 1), (1, 1)) (some ((1, 1), (0, 1)))).2.2.1 • ((3 : ℤ), (1 : ℤ)) +
        (lagrange ((3, 1), (1, 1)) (some ((1, 1), (0, 1)))).2.2.2 • ((1 : ℤ), (1 : ℤ)) ∧
      (det2 (lagrange ((3, 1), (1, 1)) (some ((1, 1), (0, 1)))).2 = 1 ∨
        det2 (lagrange ((3, 1), (1, 1)) (some ((1, 1), (0, 1)))).2 = -1) ∧
      (∀ w, InLat (((3, 1), (1, 1)) : (ℤ × ℤ) × (ℤ × ℤ)) w ↔
        InLat (lagrange ((3, 1), (1, 1)) (some ((1, 1), (0, 1)))).1 w)) :=
  ⟨Or.inl (by decide),
    C9_lagrange_multiples ((3, 1), (1, 1)) ((1, 1), (0, 1)) (Or.inl (by decide))⟩

theorem latticeVec_zero {n : ℕ} (B : Matrix (Fin n) (Fin n) ℤ) :
    latticeVec B 0 = 0 := by
  funext j
  simp [latticeVec]

theorem latticeVec_add_single {n : ℕ} (B : Matrix (Fin n) (Fin n) ℤ)
    (c : Fin n → ℤ) (k : Fin n) (q : ℤ) :
    latticeVec B (c + Pi.single k q) = latticeVec B c + (q : ℚ) • rowQ B k := by
  funext j
  simp only [latticeVec, Pi.add_apply, Pi.smul_apply, rowQ, smul_eq_mul]
  have hterm : ∀ x : Fin n, ((c x + (Pi.single k q : Fin n → ℤ) x : ℤ) : ℚ) * (B x j : ℚ) =
      (c x : ℚ) * (B x j : ℚ) + (((Pi.single k q : Fin n → ℤ) x : ℤ) : ℚ) * (B x j : ℚ) := by
    intro x
    push_cast
    ring
  rw [Finset.sum_congr rfl (fun x _ => hterm x), Finset.sum_add_distrib]
  congr 1
  rw [Finset.sum_eq_single k]
  · simp
  · intro b _ hb
    simp [Pi.single_apply, hb]
  · intro h
    exact absurd (Finset.mem_univ k) h

theorem babaiAux_diff {n : ℕ} (B : Matrix (Fin n) (Fin n) ℤ)
    (stars : List (Fin n → ℚ)) :
    ∀ k w, ∃ c : Fin n → ℤ, w - babaiAux B stars k w = latticeVec B c := by
  intro k
  induction k with
  | zero =>
      intro w
      refine ⟨0, ?_⟩
      rw [latticeVec_zero, babaiAux]
      simp
  | succ k ih =>
      intro w
      rw [babaiAux]
      set s := stars.getD k 0
      set q := ratRound (dotQ w s / dotQ s s) with hq
      obtain ⟨c, hc⟩ := ih (w - (q : ℚ) • rowN B k)
      by_cases hk : k < n
      · refine ⟨c + Pi.single ⟨k, hk⟩ q, ?_⟩
        rw [latticeVec_add_single, ← hc]
        have hrow : rowN B k = rowQ B ⟨k, hk⟩ := by rw [rowN, dif_pos hk]
        rw [hrow]
        abel
      · refine ⟨c, ?_⟩
        rw [← hc]
        have hrow : rowN B k = 0 := by rw [rowN, dif_neg hk]
        rw [hrow]
        simp

theorem babai_in_lattice {n : ℕ} (B : Matrix (Fin n) (Fin n) ℤ) (t : Fin n → ℚ) :
    InLattice B (babai B t) := by
  obtain ⟨c, hc⟩ := babaiAux_diff B (gsStars B n) n t
  exact ⟨c, hc ▸ rfl⟩

theorem mem_intRange (lo hi a : ℤ) (h1 : lo ≤ a) (h2 : a ≤ hi) :
    a ∈ intRange lo hi := by
  rw [intRange, List.mem_map]
  refine ⟨(a - lo).toNat, List.mem_range.mpr ?_, ?_⟩
  · omega
  · rw [Int.ofNat_eq_coe]
    omega

theorem ofFn_mem_allTuples :
    ∀ (n : ℕ) (c : Fin n → ℤ) (cands : List ℤ),
      (∀ i, c i ∈ cands) → List.ofFn c ∈ allTuples cands n := by
  intro n
  induction n with
  | zero => intro c cands _; simp [allTuples]
  | succ n ih =>
      intro c cands hc
      rw [List.ofFn_succ, allTuples, List.mem_flatMap]
      refine ⟨List.ofFn (fun i => c i.succ), ih _ cands (fun i => hc i.succ), ?_⟩
      rw [List.mem_map]
      exact ⟨c 0, hc 0, rfl⟩

theorem foldl_min {n : ℕ} (B : Matrix (Fin n) (Fin n) ℤ) (t : Fin n → ℚ) :
    ∀ (l : List (Fin n → ℤ)) (bv : Fin n → ℚ),
      (l.foldl (fun best c =>
        if distSq (latticeVec B c) t < distSq best t then latticeVec B c else best) bv = bv ∨
       ∃ cc ∈ l, l.foldl (fun best c =>
        if distSq (latticeVec B c) t < distSq best t then latticeVec B c else best) bv =
          latticeVec B cc) ∧
      distSq (l.foldl (fun best c =>
        if distSq (latticeVec B c) t < distSq best t then latticeVec B c else best) bv) t ≤
        distSq bv t ∧
      (∀ cc ∈ l, distSq (l.foldl (fun best c =>
        if distSq (latticeVec B c) t < distSq best t then latticeVec B c else best) bv) t ≤
        distSq (latticeVec B cc) t) := by
  intro l
  induction l with
  | nil =>
      intro bv
      exact ⟨Or.inl rfl, le_rfl, fun cc hcc => absurd hcc (List.not_mem_nil cc)⟩
  | cons c rest ih =>
      intro bv
      rw [List.foldl_cons]
      by_cases hlt : distSq (latticeVec B c) t < distSq bv t
      · rw [if_pos hlt]
        obtain ⟨ih1, ih2, ih3⟩ := ih (latticeVec B c)
        refine ⟨?_, le_trans ih2 (le_of_lt hlt), ?_⟩
        · rcases ih1 with h | ⟨cc, hcc, h⟩
          · exact Or.inr ⟨c, List.mem_cons_self c rest, h⟩
          · exact Or.inr ⟨cc, List.mem_cons_of_mem c hcc, h⟩
        · intro cc hcc
          rcases List.mem_cons.mp hcc with rfl | hcc2
          · exact ih2
          · exact ih3 cc hcc2
      · rw [if_neg hlt]
        push_neg at hlt
        obtain ⟨ih1, ih2, ih3⟩ := ih bv
        refine ⟨?_, ih2, ?_⟩
        · rcases ih1 with h | ⟨cc, hcc, h⟩
          · exact Or.inl h
          · exact Or.inr ⟨cc, List.mem_cons_of_mem c hcc, h⟩
        · intro cc hcc
          rcases List.mem_cons.mp hcc with rfl | hcc2
          · exact le_trans ih2 hlt
          · exact ih3 cc hcc2

theorem ratBound_ge (q : ℚ) : q ≤ ((ratBound q : ℤ) : ℚ) := by
  have hd0 : ((q.den : ℚ)) ≠ 0 := by
    have := q.pos
    positivity
  have hmul : q * (q.den : ℚ) = (q.num : ℚ) := by
    nth_rewrite 1 [← Rat.num_div_den q]
    field_simp
  have hden1 : (1 : ℚ) ≤ (q.den : ℚ) := by exact_mod_cast q.pos
  have h2 : |q| ≤ |(q.num : ℚ)| := by
    rw [← hmul, abs_mul, abs_of_nonneg (show (0 : ℚ) ≤ (q.den : ℚ) by positivity)]
    nlinarith [abs_nonneg q]
  rw [ratBound]
  push_cast
  have h1 := le_abs_self q
  linarith

theorem abs_le_max_one (x R2 : ℚ) (h : x ^ 2 ≤ R2) : |x| ≤ max 1 R2 := by
  by_cases h1 : |x| ≤ 1
  · exact le_trans h1 (le_max_left 1 R2)
  · push_neg at h1
    have hsq : |x| * 1 ≤ |x| * |x| :=
      mul_le_mul_of_nonneg_left (le_of_lt h1) (abs_nonneg x)
    have h2 : |x| ≤ x ^ 2 := by
      calc |x| = |x| * 1 := (mul_one _).symm
        _ ≤ |x| * |x| := hsq
        _ = x * x := abs_mul_abs_self x
        _ = x ^ 2 := (sq x).symm
    exact le_trans (le_trans h2 h) (le_max_right 1 R2)

theorem latticeVec_eq_vecMul {n : ℕ} (B : Matrix (Fin n) (Fin n) ℤ)
    (c : Fin n → ℤ) :
    latticeVec B c = Matrix.vecMul (fun i => (c i : ℚ)) (matQ B) := by
  funext j
  simp only [latticeVec, Matrix.vecMul, Matrix.dotProduct, matQ]

theorem matQ_mul_inv {n : ℕ} (B : Matrix (Fin n) (Fin n) ℤ)
    (hdet : (matQ B).det ≠ 0) :
    matQ B * ((matQ B).det⁻¹ • (matQ B).adjugate) = 1 := by
  rw [Matrix.mul_smul, Matrix.mul_adjugate, smul_smul,
    inv_mul_cancel₀ hdet, one_smul]

theorem coeff_recover {n : ℕ} (B : Matrix (Fin n) (Fin n) ℤ)
    (hdet : (matQ B).det ≠ 0) (c : Fin n → ℤ) :
    (fun i => (c i : ℚ)) =
      Matrix.vecMul (latticeVec B c) ((matQ B).det⁻¹ • (matQ B).adjugate) := by
  rw [latticeVec_eq_vecMul, Matrix.vecMul_vecMul, matQ_mul_inv B hdet,
    Matrix.vecMul_one]

theorem coeff_recover_apply {n : ℕ} (B : Matrix (Fin n) (Fin n) ℤ)
    (hdet : (matQ B).det ≠ 0) (c : Fin n → ℤ) (i : Fin n) :
    (c i : ℚ) =
      ∑ j, latticeVec B c j * ((matQ B).det⁻¹ • (matQ B).adjugate) j i := by
  have h := congrFun (coeff_recover B hdet c) i
  rw [h]
  rw [Matrix.vecMul, Matrix.dotProduct]

theorem entry_le_double_sum {n : ℕ} (M : Matrix (Fin n) (Fin n) ℚ) (j i : Fin n) :
    |M j i| ≤ ∑ p, ∑ q2, |M p q2| :=
  le_trans
    (Finset.single_le_sum (fun x _ => abs_nonneg (M j x)) (Finset.mem_univ i))
    (Finset.single_le_sum
      (fun x _ => Finset.sum_nonneg (fun y _ => abs_nonneg (M x y)))
      (Finset.mem_univ j))

theorem comp_le_of_distSq {n : ℕ} (v t : Fin n → ℚ) (R2 : ℚ)
    (h : distSq v t ≤ R2) (j : Fin n) : |v j| ≤ |t j| + max 1 R2 := by
  have hsq : (v j - t j) ^ 2 ≤ R2 := by
    refine le_trans ?_ h
    rw [distSq]
    exact Finset.single_le_sum (fun x _ => sq_nonneg (v x - t x)) (Finset.mem_univ j)
  have habs := abs_le_max_one (v j - t j) R2 hsq
  calc |v j| = |t j + (v j - t j)| := by ring_nf
    _ ≤ |t j| + |v j - t j| := abs_add _ _
    _ ≤ |t j| + max 1 R2 := by linarith

theorem cvp_coeff_bound {n : ℕ} (B : Matrix (Fin n) (Fin n) ℤ) (t : Fin n → ℚ)
    (R2 : ℚ) (hdet : (matQ B).det ≠ 0) (c : Fin n → ℤ)
    (hdist : distSq (latticeVec B c) t ≤ R2) (i : Fin n) :
    |(c i : ℚ)| ≤ (∑ j, (|t j| + max 1 R2)) *
      (∑ p, ∑ q2, |((matQ B).det⁻¹ • (matQ B).adjugate) p q2|) := by
  have hci := coeff_recover_apply B hdet c i
  set M := (matQ B).det⁻¹ • (matQ B).adjugate with hM
  set v := latticeVec B c with hv
  rw [hci]
  have hstep : ∀ j : Fin n, |v j * M j i| ≤
      (|t j| + max 1 R2) * (∑ p, ∑ q2, |M p q2|) := by
    intro j
    rw [abs_mul]
    refine mul_le_mul (comp_le_of_distSq v t R2 hdist j)
      (entry_le_double_sum M j i) (abs_nonneg _) ?_
    have h1 : (0 : ℚ) ≤ max 1 R2 := le_trans zero_le_one (le_max_left 1 R2)
    have h2 := abs_nonneg (t j)
    linarith
  calc |∑ j, v j * M j i| ≤ ∑ j, |v j * M j i| := Finset.abs_sum_le_sum_abs _ _
    _ ≤ ∑ j, (|t j| + max 1 R2) * (∑ p, ∑ q2, |M p q2|) :=
        Finset.sum_le_sum (fun j _ => hstep j)
    _ = (∑ j, (|t j| + max 1 R2)) * (∑ p, ∑ q2, |M p q2|) := by
        rw [Finset.sum_mul]

theorem getD_ofFn {n : ℕ} (c : Fin n → ℤ) (i : Fin n) :
    (List.ofFn c).getD (i : ℕ) 0 = c i := by
  have hlen : (i : ℕ) < (List.ofFn c).length := by
    rw [List.length_ofFn]
    exact i.isLt
  rw [List.getD_eq_getElem _ _ hlen, List.getElem_ofFn]

theorem cvp_core {n : ℕ} (B : Matrix (Fin n) (Fin n) ℤ) (t : Fin n → ℚ)
    (hdet : (matQ B).det ≠ 0) :
    InLattice B (solve_cvp B t) ∧
    (∀ w, InLattice B w → distSq (solve_cvp B t) t ≤ distSq w t) := by
  set bv := babai B t with hbv
  set R2 := distSq bv t with hR2
  set Binv := (matQ B).det⁻¹ • (matQ B).adjugate with hBinv
  set Amax := ∑ p, ∑ q2, |Binv p q2| with hAmax
  set K := (∑ j, (|t j| + max 1 R2)) * Amax with hK
  set Kc := ratBound K with hKc
  set box := (allTuples (intRange (-Kc) Kc) n).map
    (fun l => (fun i : Fin n => l.getD i 0)) with hbox
  have hsolve : solve_cvp B t = box.foldl (fun best c =>
      if distSq (latticeVec B c) t < distSq best t then latticeVec B c
      else best) bv := rfl
  obtain ⟨hmem, hle_bv, hmin⟩ := foldl_min B t box bv
  rw [← hsolve] at hmem hle_bv hmin
  constructor
  · rcases hmem with h | ⟨cc, _, h⟩
    · rw [h]
      exact babai_in_lattice B t
    · exact ⟨cc, h⟩
  · rintro w ⟨cw, rfl⟩
    by_cases hdist : distSq (latticeVec B cw) t ≤ R2
    · have hKb : K ≤ ((Kc : ℤ) : ℚ) := by
        rw [hKc]
        exact ratBound_ge K
      have hciK : ∀ i, -Kc ≤ cw i ∧ cw i ≤ Kc := by
        intro i
        have h1 := cvp_coeff_bound B t R2 hdet cw hdist i
        rw [← hBinv, ← hAmax, ← hK] at h1
        obtain ⟨h2, h3⟩ := abs_le.mp h1
        constructor
        · have h4 : -((Kc : ℤ) : ℚ) ≤ ((cw i : ℤ) : ℚ) := by linarith
          exact_mod_cast h4
        · have h4 : ((cw i : ℤ) : ℚ) ≤ ((Kc : ℤ) : ℚ) := by linarith
          exact_mod_cast h4
      have hmemBox : cw ∈ box := by
        rw [hbox, List.mem_map]
        refine ⟨List.ofFn cw,
          ofFn_mem_allTuples n cw _
            (fun i => mem_intRange _ _ _ (hciK i).1 (hciK i).2), ?_⟩
        funext i
        exact getD_ofFn cw i
      exact hmin cw hmemBox
    · push_neg at hdist
      calc distSq (box.foldl (fun best c =>
            if distSq (latticeVec B c) t < distSq best t then latticeVec B c
            else best) bv) t ≤ R2 := hle_bv
        _ ≤ distSq (latticeVec B cw) t := le_of_lt hdist

theorem latticeVec_one_dim (c : Fin 1 → ℤ) :
    @latticeVec 1 (fun _ _ => 1) c = fun _ => (c 0 : ℚ) := by
  funext j
  rw [latticeVec, Fin.sum_univ_one]
  norm_num

theorem distSq_one_dim (q w : ℚ) :
    @distSq 1 (fun _ => q) (fun _ => w) = (q - w) ^ 2 := by
  rw [distSq, Fin.sum_univ_one]

theorem int_dist_quarter (a : ℤ) :
    (1 / 4 : ℚ) ≤ ((a : ℚ) - 1 / 2) ^ 2 := by
  have h : (0 : ℚ) ≤ (a : ℚ) * ((a : ℚ) - 1) := by
    rcases le_or_lt a 0 with h1 | h1
    · have ha : (a : ℚ) ≤ 0 := by exact_mod_cast h1
      have hb : (a : ℚ) - 1 ≤ 0 := by linarith
      have := mul_nonneg (neg_nonneg.mpr ha) (neg_nonneg.mpr hb)
      nlinarith
    · have ha : (1 : ℚ) ≤ (a : ℚ) := by exact_mod_cast h1
      have hb : (0 : ℚ) ≤ (a : ℚ) - 1 := by linarith
      exact mul_nonneg (by linarith) hb
  nlinarith

/-- C5 counterexample: for the one-dimensional basis (1) and the target
1/2 there are two lattice vectors, 0 and 1, at the same minimal
distance, so the returned vector cannot strictly minimise the distance
over the lattice; the claim that solve_cvp returns the vector that
strictly minimises the distance is false at this input. -/
theorem C5_cex :
    ¬ (@InLattice 1 (fun _ _ => 1) (@solve_cvp 1 (fun _ _ => 1) (fun _ => 1 / 2)) ∧
      ∀ w, @InLattice 1 (fun _ _ => 1) w →
        w ≠ @solve_cvp 1 (fun _ _ => 1) (fun _ => 1 / 2) →
        @distSq 1 (@solve_cvp 1 (fun _ _ => 1) (fun _ => 1 / 2)) (fun _ => 1 / 2) <
          @distSq 1 w (fun _ => 1 / 2)) := by
  rintro ⟨⟨cres, hres⟩, hstrict⟩
  rw [latticeVec_one_dim] at hres
  have hw0 : @InLattice 1 (fun _ _ => 1) (fun _ => (0 : ℚ)) :=
    ⟨fun _ => 0, by rw [latticeVec_one_dim]; norm_num⟩
  have hw1 : @InLattice 1 (fun _ _ => 1) (fun _ => (1 : ℚ)) :=
    ⟨fun _ => 1, by rw [latticeVec_one_dim]; norm_num⟩
  have hdres : @distSq 1 (@solve_cvp 1 (fun _ _ => 1) (fun _ => 1 / 2)) (fun _ => 1 / 2) =
      ((cres 0 : ℚ) - 1 / 2) ^ 2 := by
    rw [hres, distSq_one_dim]
  by_cases ha : cres 0 = 0
  · have hne : (fun _ : Fin 1 => (1 : ℚ)) ≠
        @solve_cvp 1 (fun _ _ => 1) (fun _ => 1 / 2) := by
      intro heq
      have h2 := congrFun (heq.trans hres) 0
      rw [ha] at h2
      norm_num at h2
    have hlt := hstrict _ hw1 hne
    rw [hdres, ha, distSq_one_dim] at hlt
    norm_num at hlt
  · have hne : (fun _ : Fin 1 => (0 : ℚ)) ≠
        @solve_cvp 1 (fun _ _ => 1) (fun _ => 1 / 2) := by
      intro heq
      have h2 := congrFun (heq.trans hres) 0
      have h3 : (cres 0 : ℚ) = 0 := h2.symm
      exact ha (by exact_mod_cast h3)
    have hlt := hstrict _ hw0 hne
    rw [hdres, distSq_one_dim] at hlt
    have hq := int_dist_quarter (cres 0)
    nlinarith

/-- C5 (amended): for every delta-LLL-reduced square integer basis B of
full rank and every rational target t, babai(B, t) returns a vector of
the lattice generated by B, and solve_cvp(B, t) returns a lattice
vector whose distance to t is minimal over the whole lattice (a closest
vector; the minimiser need not be strict, since ties are possible). -/
theorem C5_babai_cvp {n : ℕ} (B : Matrix (Fin n) (Fin n) ℤ) (t : Fin n → ℚ)
    (δ : ℚ) (hδ1 : 1 / 4 < δ) (hδ2 : δ ≤ 1) (hlll : is_lll_reduced B δ)
    (hdet : (matQ B).det ≠ 0) :
    InLattice B (babai B t) ∧ InLattice B (solve_cvp B t) ∧
    ∀ w, InLattice B w → distSq (solve_cvp B t) t ≤ distSq w t :=
  ⟨babai_in_lattice B t, (cvp_core B t hdet).1, (cvp_core B t hdet).2⟩

/-- Witness for C5 with the one-dimensional basis (1), delta = 1/2 and
the target 0. -/
theorem C5_babai_cvp_witness :
    ((1 / 4 : ℚ) < 1 / 2 ∧ (1 / 2 : ℚ) ≤ 1 ∧
      @is_lll_reduced 1 (fun _ _ => 1) (1 / 2) ∧
      (@matQ 1 (fun _ _ => 1)).det ≠ 0) ∧
    (@InLattice 1 (fun _ _ => 1) (@babai 1 (fun _ _ => 1) (fun _ => 0)) ∧
      @InLattice 1 (fun _ _ => 1) (@solve_cvp 1 (fun _ _ => 1) (fun _ => 0)) ∧
      ∀ w, @InLattice 1 (fun _ _ => 1) w →
        @distSq 1 (@solve_cvp 1 (fun _ _ => 1) (fun _ => 0)) (fun _ => 0) ≤
          @distSq 1 w (fun _ => 0)) := by
  have hlll : @is_lll_reduced 1 (fun _ _ => 1) (1 / 2) := by
    constructor
    · intro i hi j hj
      exact absurd hj (by omega)
    · intro k hk h2
      exact absurd h2 (by omega)
  have hdet : (@matQ 1 (fun _ _ => 1)).det ≠ 0 := by
    rw [Matrix.det_fin_one]
    norm_num [matQ]
  exact ⟨⟨by norm_num, by norm_num, hlll, hdet⟩,
    C5_babai_cvp (fun _ _ => 1) (fun _ => 0) (1 / 2)
      (by norm_num) (by norm_num) hlll hdet⟩
